import Mathlib

/-!
Shallow embedding of the `futologia` soccer-events core: the
`Match`/`PossessionNode`/`Event` linked data model (`soccer_events/core.py`),
the Dirichlet-categorical prior estimator (`soccer_events/probabilistic.py`),
the StatsBomb ingestion adapter (`soccer_events/statsbomb_loader.py`), and the
index-addressed update/delete operations of the HTTP layer (`app.py`).

Python object references are embedded as arena indices (`Nat`) into append-only
arenas; Python `float` is embedded as `ℚ`; in-place mutation becomes explicit
state passing on the `Match` record.
-/

set_option maxHeartbeats 1000000

namespace SoccerEvents

/-- The closed 10-label event-type enumeration (`core.py` `EventType`). -/
inductive EventType where
  | PASS
  | SHOT
  | FOUL
  | TURNOVER
  | TACKLE
  | DRIBBLE
  | INTERCEPTION
  | SAVE
  | CLEARANCE
  | OTHER
  deriving DecidableEq, Inhabited

/-- The canonical labels in Python enum declaration order
(`for et in EventType`). -/
def EventType.all : List EventType :=
  [.PASS, .SHOT, .FOUL, .TURNOVER, .TACKLE, .DRIBBLE,
   .INTERCEPTION, .SAVE, .CLEARANCE, .OTHER]

/-- `core.py` `Event`.  The `prev_in_possession` / `next_in_possession` /
`possession` object references become arena indices (`Option Nat`); tag
values are embedded as booleans (the only tag the code reads is the truthy
`is_goal`). -/
structure Event where
  match_time : ℚ
  event_type : EventType
  team : String
  player : Option String := none
  description : Option String := none
  x : Option ℚ := none
  y : Option ℚ := none
  tags : List (String × Bool) := []
  prev_in_possession : Option Nat := none
  next_in_possession : Option Nat := none
  possession : Option Nat := none
  deriving DecidableEq, Inhabited

/-- `core.py` `PossessionNode`; sibling-possession and head/tail event
references become arena indices. -/
structure PossessionNode where
  id : Nat
  team_in_possession : String
  prev_possession : Option Nat := none
  next_possession : Option Nat := none
  first_event : Option Nat := none
  last_event : Option Nat := none
  deriving DecidableEq, Inhabited

/-- `core.py` `Match`: possession chain, event arena, and the flat
`_events` list of event ids kept sorted by `match_time`. -/
structure Match where
  home_team : String
  away_team : String
  possArena : List PossessionNode := []
  first_possession : Option Nat := none
  last_possession : Option Nat := none
  evArena : List Event := []
  events : List Nat := []
  next_possession_id : Nat := 1
  deriving DecidableEq, Inhabited

/-- `Match.__init__`. -/
def Match.init (home_team away_team : String) : Match :=
  { home_team := home_team, away_team := away_team }

/-- `Match.new_possession`: allocate the next id, append the node to the
possession chain tail; returns the updated match and the new node's arena
index. -/
def Match.new_possession (m : Match) (team_in_possession : String) :
    Match × Nat :=
  let idx := m.possArena.length
  let node : PossessionNode :=
    { id := m.next_possession_id, team_in_possession := team_in_possession,
      prev_possession := m.last_possession }
  match m.last_possession with
  | none =>
      ({ m with possArena := m.possArena ++ [node],
                first_possession := some idx,
                last_possession := some idx,
                next_possession_id := m.next_possession_id + 1 }, idx)
  | some lastIdx =>
      let prevNode := m.possArena.getD lastIdx default
      ({ m with possArena :=
                  (m.possArena.set lastIdx
                    { prevNode with next_possession := some idx }) ++ [node],
                last_possession := some idx,
                next_possession_id := m.next_possession_id + 1 }, idx)

/-- The `match_time` of the event stored at arena index `i`. -/
def timeOf (arena : List Event) (i : Nat) : ℚ :=
  (arena.getD i default).match_time

/-- The backward scan of `Match.add_event`:
`idx = len(events); while idx > 0 and events[idx-1].match_time > t: idx -= 1`.
The argument of the recursion is the current value of `idx`. -/
def scanIdx (arena : List Event) (t : ℚ) (events : List Nat) : Nat → Nat
  | 0 => 0
  | idx + 1 =>
      if t < timeOf arena (events.getD idx 0) then
        scanIdx arena t events idx
      else
        idx + 1

/-- `self._events.insert(idx, ev)` with `idx` computed by the backward scan. -/
def insertByTime (arena : List Event) (t : ℚ) (evIdx : Nat)
    (events : List Nat) : List Nat :=
  let idx := scanIdx arena t events events.length
  events.take idx ++ [evIdx] ++ events.drop idx

/-- `Match.add_event`: resolve (or implicitly create) the possession, build
the event, append it to the possession's local chain
(`PossessionNode.add_event`), and insert it into the match-wide sorted
sequence.  Returns the updated match and the new event's arena index. -/
def Match.add_event (m : Match) (match_time : ℚ) (event_type : EventType)
    (team : String) (possession : Option Nat) (player : Option String)
    (description : Option String) (x : Option ℚ) (y : Option ℚ)
    (tags : List (String × Bool)) : Match × Nat :=
  let step1 : Match × Nat :=
    match possession with
    | some p => (m, p)
    | none => m.new_possession team
  let m1 := step1.1
  let posIdx := step1.2
  let node := m1.possArena.getD posIdx default
  let evIdx := m1.evArena.length
  let ev : Event :=
    { match_time := match_time, event_type := event_type, team := team,
      player := player, description := description, x := x, y := y,
      tags := tags, prev_in_possession := node.last_event,
      possession := some posIdx }
  let step2 : List Event × PossessionNode :=
    match node.last_event with
    | none =>
        (m1.evArena ++ [ev],
         { node with first_event := some evIdx, last_event := some evIdx })
    | some le =>
        let leEv := m1.evArena.getD le default
        ((m1.evArena.set le { leEv with next_in_possession := some evIdx })
           ++ [ev],
         { node with last_event := some evIdx })
  let arena1 := step2.1
  let node1 := step2.2
  ({ m1 with possArena := m1.possArena.set posIdx node1,
             evArena := arena1,
             events := insertByTime arena1 match_time evIdx m1.events }, evIdx)

/-- Forward traversal of a possession-local event chain
(`PossessionNode.iter_events`), with explicit fuel standing in for
Python's unbounded `while` loop. -/
def iterFwd (arena : List Event) : Nat → Option Nat → List Nat
  | 0, _ => []
  | _, none => []
  | fuel + 1, some i =>
      i :: iterFwd arena fuel (arena.getD i default).next_in_possession

/-- Backward traversal (`PossessionNode.iter_events_reverse`). -/
def iterBwd (arena : List Event) : Nat → Option Nat → List Nat
  | 0, _ => []
  | _, none => []
  | fuel + 1, some i =>
      i :: iterBwd arena fuel (arena.getD i default).prev_in_possession

/-- `PossessionNode.iter_events` of the possession at arena index `p`,
as the list of visited event ids. -/
def Match.possession_iter_events (m : Match) (p : Nat) : List Nat :=
  iterFwd m.evArena m.evArena.length
    ((m.possArena.getD p default).first_event)

/-- `PossessionNode.iter_events_reverse` of the possession at arena index
`p`. -/
def Match.possession_iter_events_reverse (m : Match) (p : Nat) : List Nat :=
  iterBwd m.evArena m.evArena.length
    ((m.possArena.getD p default).last_event)

/-- `Match.iter_events`: the match-wide sequence, as event ids. -/
def Match.iter_events (m : Match) : List Nat := m.events

/-- The partial-update payload accepted by `app.py` `update_event`
(PATCH): an outer `some` means the key is present in the request body. -/
structure UpdateFields where
  match_time : Option ℚ := none
  event_type : Option EventType := none
  team : Option String := none
  player : Option (Option String) := none
  description : Option (Option String) := none
  x : Option (Option ℚ) := none
  y : Option (Option ℚ) := none
  tags : Option (List (String × Bool)) := none
  deriving DecidableEq, Inhabited

/-- The in-place field mutations of `app.py` `update_event` applied to one
event record.  Fields absent from the payload — and the link fields, which
the endpoint never touches — are left unchanged. -/
def applyUpdate (e : Event) (u : UpdateFields) : Event :=
  let e1 := match u.match_time with
    | some t => { e with match_time := t }
    | none => e
  let e2 := match u.event_type with
    | some t => { e1 with event_type := t }
    | none => e1
  let e3 := match u.team with
    | some t => { e2 with team := t }
    | none => e2
  let e4 := match u.player with
    | some v => { e3 with player := v }
    | none => e3
  let e5 := match u.description with
    | some v => { e4 with description := v }
    | none => e4
  let e6 := match u.x with
    | some v => { e5 with x := v }
    | none => e5
  let e7 := match u.y with
    | some v => { e6 with y := v }
    | none => e6
  match u.tags with
  | some v => { e7 with tags := v }
  | none => e7

/-- `app.py` `update_event`: address the event by its index in the
time-ordered list (404 = `none` when out of range), mutate it in place;
the match-wide list is deliberately not re-sorted. -/
def Match.update_event (m : Match) (index : Nat) (u : UpdateFields) :
    Option Match :=
  if index < m.events.length then
    let target := m.events.getD index 0
    let tEv := m.evArena.getD target default
    some { m with evArena := m.evArena.set target (applyUpdate tEv u) }
  else
    none

/-- The neighbor-relinking step of `app.py` `delete_event`: if the target
has a predecessor in its possession, point that predecessor's `next` past
the target; if it has a successor, point that successor's `prev` past the
target.  The target's own entry is left untouched (as in the Python code,
which never clears the deleted object's pointers). -/
def relinkArena (arena : List Event) (target : Nat) : List Event :=
  let tEv := arena.getD target default
  let arena1 :=
    match tEv.prev_in_possession with
    | some pr =>
        arena.set pr
          { arena.getD pr default with
            next_in_possession := tEv.next_in_possession }
    | none => arena
  match tEv.next_in_possession with
  | some nx =>
      arena1.set nx
        { arena1.getD nx default with
          prev_in_possession := tEv.prev_in_possession }
  | none => arena1

/-- The possession head/tail fixup of `app.py` `delete_event`: when the
target is the possession's first (resp. last) event, the reference moves to
the target's successor (resp. predecessor). -/
def relinkPossession (pos : PossessionNode) (target : Nat) (tEv : Event) :
    PossessionNode :=
  let pos1 :=
    if pos.first_event = some target then
      { pos with first_event := tEv.next_in_possession }
    else pos
  if pos1.last_event = some target then
    { pos1 with last_event := tEv.prev_in_possession }
  else pos1

/-- `app.py` `delete_event`: address the event by index (404 = `none`),
relink its possession-local neighbors, fix the possession's head/tail
references, then remove it from the match-wide sequence
(`_events.remove(target)` = remove the first occurrence). -/
def Match.delete_event (m : Match) (index : Nat) : Option Match :=
  if index < m.events.length then
    let target := m.events.getD index 0
    let tEv := m.evArena.getD target default
    let arena2 := relinkArena m.evArena target
    let possArena1 :=
      match tEv.possession with
      | some pi =>
          m.possArena.set pi
            (relinkPossession (m.possArena.getD pi default) target tEv)
      | none => m.possArena
    some { m with evArena := arena2, possArena := possArena1,
                  events := m.events.erase target }
  else
    none

/-! ### Dirichlet-categorical prior estimator (`probabilistic.py`) -/

/-- Lookup in a Python-dict-like association list (`counts.get(et)`). -/
def findCount : List (EventType × ℚ) → EventType → Option ℚ
  | [], _ => none
  | (e, c) :: rest, et => if e = et then some c else findCount rest et

/-- `counts[ev.event_type] += 1.0` when present (in place, preserving dict
insertion order), `counts[ev.event_type] = 1.0` (appended) otherwise. -/
def bump : List (EventType × ℚ) → EventType → List (EventType × ℚ)
  | [], et => [(et, 1)]
  | (e, c) :: rest, et =>
      if e = et then (e, c + 1) :: rest else (e, c) :: bump rest et

/-- `sum(self.counts.values())`. -/
def sumCounts (counts : List (EventType × ℚ)) : ℚ :=
  (counts.map (fun ec => ec.2)).sum

/-- `probabilistic.py` `EventTypePrior`: symmetric Dirichlet concentration
`alpha` and per-label pseudo-counts, initialised to zero for each of the 10
canonical labels in declaration order. -/
structure EventTypePrior where
  alpha : ℚ := 1
  counts : List (EventType × ℚ) := EventType.all.map (fun et => (et, 0))
  deriving DecidableEq, Inhabited

/-- `k = len(self.counts) or len(EventType)`: the number of tracked labels,
falling back to the 10 canonical labels when no label is tracked. -/
def EventTypePrior.kOf (p : EventTypePrior) : Nat :=
  if p.counts.length = 0 then EventType.all.length else p.counts.length

/-- `EventTypePrior.update_from_events`. -/
def EventTypePrior.update_from_events (p : EventTypePrior)
    (events : List Event) : EventTypePrior :=
  { p with counts := events.foldl (fun cs ev => bump cs ev.event_type) p.counts }

/-- `EventTypePrior.posterior_prob`:
`(count + alpha) / (sum_counts + alpha * K)`, degrading to uniform `1/K`
when the denominator is non-positive. -/
def EventTypePrior.posterior_prob (p : EventTypePrior) (et : EventType) : ℚ :=
  let k := p.kOf
  let num := (findCount p.counts et).getD 0 + p.alpha
  let denom := sumCounts p.counts + p.alpha * k
  if denom ≤ 0 then 1 / (k : ℚ) else num / denom

/-- `EventTypePrior.probs`: the full distribution, computed with the one
shared denominator. -/
def EventTypePrior.probs (p : EventTypePrior) : List (EventType × ℚ) :=
  let k := p.kOf
  let denom := sumCounts p.counts + p.alpha * k
  if denom ≤ 0 then
    p.counts.map (fun ec => (ec.1, 1 / (k : ℚ)))
  else
    p.counts.map (fun ec => (ec.1, (ec.2 + p.alpha) / denom))

/-- `EventTypePrior.from_events`. -/
def EventTypePrior.from_events (events : List Event) (alpha : ℚ) :
    EventTypePrior :=
  EventTypePrior.update_from_events { alpha := alpha } events

/-- Lookup in the state-indexed prior dictionary. -/
def findPrior {κ : Type} [DecidableEq κ] :
    List (κ × EventTypePrior) → κ → Option EventTypePrior
  | [], _ => none
  | (k, p) :: rest, st => if k = st then some p else findPrior rest st

/-- `priors[state] = p`: replace in place when the key is present,
append otherwise. -/
def setPrior {κ : Type} [DecidableEq κ] :
    List (κ × EventTypePrior) → κ → EventTypePrior → List (κ × EventTypePrior)
  | [], st, p => [(st, p)]
  | (k, q) :: rest, st, p =>
      if k = st then (k, p) :: rest else (k, q) :: setPrior rest st p

/-- `probabilistic.py` `StateEventTypePriors`: per-state priors keyed by an
arbitrary (decidable-equality) state type `κ`. -/
structure StateEventTypePriors (κ : Type) where
  alpha : ℚ := 1
  priors : List (κ × EventTypePrior) := []
  deriving DecidableEq, Inhabited

/-- `StateEventTypePriors._get_or_create`: return the stored prior, lazily
creating (and storing) a fresh `EventTypePrior(alpha=self.alpha)` when the
state key is absent. -/
def StateEventTypePriors.get_or_create {κ : Type} [DecidableEq κ]
    (s : StateEventTypePriors κ) (state : κ) :
    StateEventTypePriors κ × EventTypePrior :=
  match findPrior s.priors state with
  | some p => (s, p)
  | none =>
      let p : EventTypePrior := { alpha := s.alpha }
      ({ s with priors := s.priors ++ [(state, p)] }, p)

/-- `StateEventTypePriors.get_prior` (delegates to `_get_or_create`). -/
def StateEventTypePriors.get_prior {κ : Type} [DecidableEq κ]
    (s : StateEventTypePriors κ) (state : κ) :
    StateEventTypePriors κ × EventTypePrior :=
  s.get_or_create state

/-- One iteration of `StateEventTypePriors.update_from_events`: look up or
create the prior for `key_fn ev` and update it with that single event. -/
def StateEventTypePriors.step {κ : Type} [DecidableEq κ]
    (key_fn : Event → κ) (s : StateEventTypePriors κ) (ev : Event) :
    StateEventTypePriors κ :=
  let state := key_fn ev
  let sp := s.get_or_create state
  { sp.1 with
    priors := setPrior sp.1.priors state (sp.2.update_from_events [ev]) }

/-- `StateEventTypePriors.update_from_events`. -/
def StateEventTypePriors.update_from_events {κ : Type} [DecidableEq κ]
    (s : StateEventTypePriors κ) (events : List Event)
    (key_fn : Event → κ) : StateEventTypePriors κ :=
  events.foldl (StateEventTypePriors.step key_fn) s

/-- `StateEventTypePriors.from_events`. -/
def StateEventTypePriors.from_events {κ : Type} [DecidableEq κ]
    (events : List Event) (key_fn : Event → κ) (alpha : ℚ) :
    StateEventTypePriors κ :=
  StateEventTypePriors.update_from_events { alpha := alpha } events key_fn

/-! ### StatsBomb ingestion adapter (`statsbomb_loader.py`) -/

/-- The fields of a raw StatsBomb event record that
`match_from_statsbomb_events` reads.  `none` stands for a missing key (or a
missing nested `name`); empty strings are separately treated as falsy by the
Python code. -/
structure SBRecord where
  type_name : Option String := none
  team_name : Option String := none
  minute : Option ℚ := none
  second : Option ℚ := none
  possession : Option Int := none
  possession_team_name : Option String := none
  location : Option (List ℚ) := none
  player_name : Option String := none
  shot_outcome_name : Option String := none
  deriving DecidableEq, Inhabited

/-- Python truthiness of an optional string: `None` and `""` are falsy. -/
def strTruthy : Option String → Option String
  | none => none
  | some s => if s = "" then none else some s

/-- `StatsBombConfig`. -/
structure StatsBombConfig where
  pitch_length : ℚ := 120
  pitch_width : ℚ := 80
  deriving DecidableEq, Inhabited

/-- The collection loop of `_infer_team_names`: accumulate distinct truthy
team names, stopping as soon as two have been found. -/
def inferNamesLoop : List String → List SBRecord → List String
  | names, [] => names
  | names, r :: rs =>
      let names1 :=
        match strTruthy r.team_name with
        | some n => if n ∈ names then names else names ++ [n]
        | none => names
      if 2 ≤ names1.length then names1 else inferNamesLoop names1 rs

/-- `_infer_team_names`: fail unless exactly two distinct team names were
collected. -/
def inferTeamNames (events : List SBRecord) :
    Except String (String × String) :=
  let names := inferNamesLoop [] events
  match names with
  | [a, b] => Except.ok (a, b)
  | _ => Except.error
      "Could not infer exactly two team names from StatsBomb events"

/-- `_map_event_type`: approximate mapping from the StatsBomb `type.name`
vocabulary onto the closed 10-label set; unknown types fall back to
`OTHER`. -/
def mapEventType (sb_type : String) : EventType :=
  let name := sb_type.toLower
  if name = "pass" then .PASS
  else if name = "shot" then .SHOT
  else if name = "foul committed" ∨ name = "foul won" then .FOUL
  else if name = "dispossessed" ∨ name = "miscontrol" then .TURNOVER
  else if name = "tackle" ∨ name = "block" ∨ name = "clearance" then
    (if name = "clearance" then .CLEARANCE else .TACKLE)
  else if name = "dribble" ∨ name = "carry" then .DRIBBLE
  else if name = "ball recovery" ∨ name = "interception" then .INTERCEPTION
  else if name = "goalkeeper" ∨ name = "save" then .SAVE
  else .OTHER

/-- The per-record body of the ingestion loop: skip non-on-pitch record
kinds, records with a missing/falsy type or team name, and records missing
the `minute` or `second` timing field; otherwise resolve the possession
(keyed by the StatsBomb integer possession id) and `add_event`.  The
accumulator carries the match under construction and the possession-id
map. -/
def sbStep (config : StatsBombConfig)
    (acc : Match × List (Int × Nat)) (r : SBRecord) :
    Match × List (Int × Nat) :=
  let m := acc.1
  let possessions := acc.2
  match strTruthy r.type_name with
  | none => acc
  | some sb_type_name =>
    if sb_type_name = "Starting XI" ∨ sb_type_name = "Half Start" ∨
       sb_type_name = "Half End" ∨ sb_type_name = "Substitution" then acc
    else
      match r.minute, r.second with
      | some minute, some second =>
        let match_time := minute * 60 + second
        match strTruthy r.team_name with
        | none => acc
        | some team_name =>
          let poss_team_name :=
            (strTruthy r.possession_team_name).getD team_name
          let step1 : Match × List (Int × Nat) × Nat :=
            match r.possession with
            | some poss_id =>
                match possessions.lookup poss_id with
                | some idx => (m, possessions, idx)
                | none =>
                    let mp := m.new_possession poss_team_name
                    (mp.1, possessions ++ [(poss_id, mp.2)], mp.2)
            | none =>
                let mp := m.new_possession poss_team_name
                (mp.1, possessions, mp.2)
          let m1 := step1.1
          let possessions1 := step1.2.1
          let posIdx := step1.2.2
          let xy : Option ℚ × Option ℚ :=
            match r.location with
            | some (rawx :: rawy :: _) =>
                (some (rawx / config.pitch_length),
                 some (rawy / config.pitch_width))
            | _ => (none, none)
          let etype := mapEventType sb_type_name
          let isGoal := etype = .SHOT ∧ r.shot_outcome_name = some "Goal"
          let tags : List (String × Bool) :=
            if isGoal then [("is_goal", true)] else []
          let description :=
            if isGoal then "Goal" else sb_type_name
          let ma := m1.add_event match_time etype team_name (some posIdx)
            r.player_name (some description) xy.1 xy.2 tags
          (ma.1, possessions1)
      | _, _ => acc

/-- `match_from_statsbomb_events`: infer the two team names (failure is
fatal and yields no match), then fold the ingestion loop over the records. -/
def matchFromStatsbombEvents (events : List SBRecord)
    (config : StatsBombConfig) : Except String Match :=
  (inferTeamNames events).map (fun teams =>
    (events.foldl (sbStep config) (Match.init teams.1 teams.2, [])).1)

/-! ### Invariants and specification-side definitions -/

/-- Strict lexicographic order on event ids used to express "non-decreasing
`match_time`, ties in insertion order": arena indices are assigned in
insertion order. -/
def evLt (arena : List Event) (i j : Nat) : Prop :=
  timeOf arena i < timeOf arena j ∨ (timeOf arena i = timeOf arena j ∧ i < j)

/-- The sortedness invariant of the match-wide event sequence: ids are in
bounds and pairwise in `evLt` order. -/
def sortedEvents (m : Match) : Prop :=
  m.events.Pairwise (evLt m.evArena) ∧ ∀ i ∈ m.events, i < m.evArena.length

/-- The head of `rest`, or `nxt` when `rest` is empty: the expected
`next_in_possession` pointer of a chain element followed by `rest` inside a
segment whose successor is `nxt`. -/
def headOr (rest : List Nat) (nxt : Option Nat) : Option Nat :=
  match rest with
  | [] => nxt
  | j :: _ => some j

/-- The last element of `l`, or `prv` when `l` is empty. -/
def lastOr (l : List Nat) (prv : Option Nat) : Option Nat :=
  match l.getLast? with
  | none => prv
  | some j => some j

/-- A doubly-linked chain segment: the ids `ids` are linked consecutively in
`arena`, the first element's `prev` pointer being `prv` and the last
element's `next` pointer being `nxt`. -/
def chainSeg (arena : List Event) (prv nxt : Option Nat) :
    List Nat → Prop
  | [] => True
  | i :: rest =>
      (arena.getD i default).prev_in_possession = prv ∧
      (arena.getD i default).next_in_possession = headOr rest nxt ∧
      chainSeg arena (some i) nxt rest

instance chainSeg.dec (arena : List Event) (prv nxt : Option Nat) :
    ∀ ids : List Nat, Decidable (chainSeg arena prv nxt ids)
  | [] => Decidable.isTrue trivial
  | i :: rest => by
      unfold chainSeg
      have : Decidable (chainSeg arena (some i) nxt rest) :=
        chainSeg.dec arena (some i) nxt rest
      infer_instance

/-- `ids` is the (well-formed) event chain of the possession stored at arena
index `p`: a doubly-linked chain with `none` at both ends, matching the
possession's head/tail references, with in-bounds, duplicate-free members
all owned by possession `p`. -/
def chainFor (m : Match) (p : Nat) (ids : List Nat) : Prop :=
  chainSeg m.evArena none none ids ∧
  (m.possArena.getD p default).first_event = ids.head? ∧
  (m.possArena.getD p default).last_event = ids.getLast? ∧
  ids.Nodup ∧
  ∀ i ∈ ids, i < m.evArena.length ∧
    (m.evArena.getD i default).possession = some p

/-- Structural well-formedness of a match: a chain assignment for every
possession, and the match-wide sequence is a duplicate-free enumeration of
exactly the chain members. -/
def MatchInv (m : Match) : Prop :=
  ∃ chains : Nat → List Nat,
    (∀ p, p < m.possArena.length → chainFor m p (chains p)) ∧
    (∀ i, i ∈ m.events ↔ ∃ p, p < m.possArena.length ∧ i ∈ chains p) ∧
    m.events.Nodup

/-- Matches reachable from a fresh `Match` through the public operations;
the `possession` argument of `add_event`, when supplied, must be a
possession of this match, mirroring the HTTP layer's lookup-by-id. -/
inductive Reachable : Match → Prop where
  | init (home away : String) : Reachable (Match.init home away)
  | new_possession {m : Match} (team : String) :
      Reachable m → Reachable (m.new_possession team).1
  | add_event {m : Match} (match_time : ℚ) (event_type : EventType)
      (team : String) (possession : Option Nat) (player : Option String)
      (description : Option String) (x : Option ℚ) (y : Option ℚ)
      (tags : List (String × Bool)) :
      Reachable m →
      (∀ p, possession = some p → p < m.possArena.length) →
      Reachable (m.add_event match_time event_type team possession player
        description x y tags).1
  | update_event {m m' : Match} (index : Nat) (u : UpdateFields) :
      Reachable m → m.update_event index u = some m' → Reachable m'
  | delete_event {m m' : Match} (index : Nat) :
      Reachable m → m.delete_event index = some m' → Reachable m'

/-- One `add_event` call with all its arguments. -/
structure AddCall where
  match_time : ℚ
  event_type : EventType := .PASS
  team : String := ""
  possession : Option Nat := none
  player : Option String := none
  description : Option String := none
  x : Option ℚ := none
  y : Option ℚ := none
  tags : List (String × Bool) := []
  deriving DecidableEq, Inhabited

/-- Run a sequence of `add_event` calls. -/
def runAdds (m : Match) (calls : List AddCall) : Match :=
  calls.foldl (fun m c =>
    (m.add_event c.match_time c.event_type c.team c.possession c.player
      c.description c.x c.y c.tags).1) m

/-- Modelled from the spec (`posterior_prob(label) = (count[label] + alpha)
/ (Σcounts + alpha·K)`, degrading to uniform `1/K` when the denominator is
non-positive, `K` being the number of tracked labels — the 10 canonical
labels when none is tracked). -/
def specPosterior (p : EventTypePrior) (et : EventType) : ℚ :=
  let K := p.kOf
  let denom := sumCounts p.counts + p.alpha * K
  if denom ≤ 0 then 1 / (K : ℚ)
  else ((findCount p.counts et).getD 0 + p.alpha) / denom

/-- The stored count of a label (0 when untracked). -/
def countOf (p : EventTypePrior) (et : EventType) : ℚ :=
  (findCount p.counts et).getD 0

/-- The sum of a label's stored count across all state keys. -/
def sumOverStates {κ : Type} (prs : List (κ × EventTypePrior))
    (et : EventType) : ℚ :=
  (prs.map (fun kp => countOf kp.2 et)).sum

/-- The number of events of a given type in a list. -/
def countType (events : List Event) (et : EventType) : ℚ :=
  (events.map (fun ev => if ev.event_type = et then (1 : ℚ) else 0)).sum

/-- A minimal standalone event used for concrete scenarios. -/
def sampleEvent (et : EventType) (t : ℚ) : Event :=
  { match_time := t, event_type := et, team := "Team A" }

/-- Three `add_event` calls into one possession (the first call creates the
possession implicitly), used for concrete scenarios. -/
def demoCalls : List AddCall :=
  [{ match_time := 1, event_type := .PASS, team := "Team A" },
   { match_time := 2, event_type := .SHOT, team := "Team A",
     possession := some 0 },
   { match_time := 3, event_type := .FOUL, team := "Team A",
     possession := some 0 }]

/-- The match built by `demoCalls`. -/
def demoMatch : Match := runAdds (Match.init "Team A" "Team B") demoCalls

/-- The distinct truthy team names of a record list in encounter order
(the collection loop of `_infer_team_names` without its early exit):
the reference against which the early-exiting loop is characterised. -/
def collectNames : List String → List SBRecord → List String
  | names, [] => names
  | names, r :: rs =>
      let names1 :=
        match strTruthy r.team_name with
        | some n => if n ∈ names then names else names ++ [n]
        | none => names
      collectNames names1 rs

/-- Two StatsBomb records: a complete Pass by team Alpha, and a Pass by
team Beta whose `second` timing field is missing. -/
def sbTestRecords : List SBRecord :=
  [{ type_name := some "Pass", team_name := some "Alpha",
     minute := some 0, second := some 0, possession := some 1 },
   { type_name := some "Pass", team_name := some "Beta",
     minute := some 0, second := none, possession := some 2 }]

/-! ## Lemmas about the prior estimator -/

theorem findCount_bump (ty et : EventType) :
    ∀ (cs : List (EventType × ℚ)),
      (findCount (bump cs ty) et).getD 0
        = (findCount cs et).getD 0 + (if ty = et then 1 else 0)
  | [] => by
      by_cases h : ty = et <;> simp [bump, findCount, h]
  | (e, c) :: tl => by
      by_cases he : e = ty
      · by_cases h2 : e = et
        · simp [bump, findCount, he, h2, he.symm.trans h2]
        · have hty : ¬ ty = et := fun hh => h2 (he.trans hh)
          simp [bump, findCount, he, h2, hty]
      · by_cases h2 : e = et
        · have hty : ¬ ty = et := fun hh => he (h2.trans hh.symm)
          have hety : ¬ et = ty := fun hh => hty hh.symm
          simp [bump, findCount, he, h2, hty, hety]
        · simp [bump, findCount, he, h2, findCount_bump ty et tl]

theorem sumCounts_bump (cs : List (EventType × ℚ)) (ty : EventType) :
    sumCounts (bump cs ty) = sumCounts cs + 1 := by
  induction cs with
  | nil => simp [bump, sumCounts]
  | cons hd tl ih =>
      obtain ⟨e, c⟩ := hd
      by_cases he : e = ty
      · simp [bump, he, sumCounts]; ring
      · simp only [bump, if_neg he]
        simp [sumCounts] at ih ⊢
        linarith

theorem length_bump (cs : List (EventType × ℚ)) (ty : EventType)
    (h : (findCount cs ty).isSome) : (bump cs ty).length = cs.length := by
  induction cs with
  | nil => simp [findCount] at h
  | cons hd tl ih =>
      obtain ⟨e, c⟩ := hd
      by_cases he : e = ty
      · simp [bump, he]
      · simp only [findCount, if_neg he] at h
        simp [bump, if_neg he, ih h]

theorem bump_nonneg (ty : EventType) :
    ∀ (cs : List (EventType × ℚ)), (∀ x ∈ cs, 0 ≤ x.2) →
      ∀ x ∈ bump cs ty, 0 ≤ x.2
  | [], _, x, hx => by
      simp [bump] at hx
      simp [hx]
  | (e, c) :: tl, h, x, hx => by
      have hc : (0 : ℚ) ≤ c := h (e, c) (by simp)
      have htl : ∀ y ∈ tl, 0 ≤ y.2 := fun y hy => h y (by simp [hy])
      by_cases he : e = ty
      · simp [bump, he] at hx
        rcases hx with hx | hx
        · simp [hx]; linarith
        · exact htl x hx
      · simp [bump, if_neg he] at hx
        rcases hx with hx | hx
        · simp [hx]; exact hc
        · exact bump_nonneg ty tl htl x hx

theorem sumCounts_nonneg :
    ∀ (cs : List (EventType × ℚ)), (∀ x ∈ cs, 0 ≤ x.2) → 0 ≤ sumCounts cs
  | [], _ => by simp [sumCounts]
  | hd :: tl, h => by
      have hc : (0 : ℚ) ≤ hd.2 := h hd (by simp)
      have htl : ∀ x ∈ tl, 0 ≤ x.2 := fun x hx => h x (by simp [hx])
      have hs := sumCounts_nonneg tl htl
      simp [sumCounts] at hs ⊢
      linarith

theorem findCount_le_sumCounts (et : EventType) :
    ∀ (cs : List (EventType × ℚ)), (∀ x ∈ cs, 0 ≤ x.2) →
      ∀ (c : ℚ), findCount cs et = some c → c ≤ sumCounts cs
  | [], _, c, hc => by simp [findCount] at hc
  | (e, c0) :: tl, h, c, hc => by
      have hc0 : (0 : ℚ) ≤ c0 := h (e, c0) (by simp)
      have htl : ∀ x ∈ tl, 0 ≤ x.2 := fun x hx => h x (by simp [hx])
      by_cases he : e = et
      · simp [findCount, he] at hc
        have hs := sumCounts_nonneg tl htl
        simp [sumCounts] at hs ⊢
        subst hc
        linarith
      · simp [findCount, if_neg he] at hc
        have hle := findCount_le_sumCounts et tl htl c hc
        simp [sumCounts] at hle ⊢
        linarith

theorem list_sum_map_div {α : Type} (l : List α) (g : α → ℚ) (d : ℚ) :
    (l.map (fun x => g x / d)).sum = (l.map g).sum / d := by
  induction l with
  | nil => simp
  | cons hd tl ih => simp [ih, add_div]

theorem sum_map_add_const (cs : List (EventType × ℚ)) (a : ℚ) :
    (cs.map (fun ec => ec.2 + a)).sum = sumCounts cs + cs.length * a := by
  induction cs with
  | nil => simp [sumCounts]
  | cons hd tl ih =>
      simp only [List.map_cons, List.sum_cons, List.length_cons]
      rw [ih]
      simp [sumCounts]
      ring

theorem findCount_default (et : EventType) :
    findCount (EventType.all.map (fun e => (e, (0 : ℚ)))) et = some 0 := by
  cases et <;> decide

theorem countOf_update_one (p : EventTypePrior) (ev : Event)
    (et : EventType) :
    countOf (p.update_from_events [ev]) et
      = countOf p et + (if ev.event_type = et then 1 else 0) := by
  simp [countOf, EventTypePrior.update_from_events, findCount_bump]

theorem countOf_fold (et : EventType) :
    ∀ (events : List Event) (p : EventTypePrior),
      countOf (p.update_from_events events) et
        = countOf p et + countType events et := by
  intro events
  induction events with
  | nil => intro p; simp [EventTypePrior.update_from_events, countType, countOf]
  | cons ev rest ih =>
      intro p
      have step :
          p.update_from_events (ev :: rest)
            = (p.update_from_events [ev]).update_from_events rest := by
        simp [EventTypePrior.update_from_events]
      rw [step, ih, countOf_update_one]
      simp [countType]
      ring

/-! ## Lemmas about the state-indexed priors -/

theorem findPrior_append_self {κ : Type} [DecidableEq κ]
    (prs : List (κ × EventTypePrior)) (k : κ) (p : EventTypePrior)
    (h : findPrior prs k = none) :
    findPrior (prs ++ [(k, p)]) k = some p := by
  induction prs with
  | nil => simp [findPrior]
  | cons hd tl ih =>
      obtain ⟨k0, p0⟩ := hd
      by_cases hk : k0 = k
      · simp [findPrior, hk] at h
      · simp only [findPrior, if_neg hk] at h
        simp [findPrior, if_neg hk, ih h]

theorem findPrior_append_other {κ : Type} [DecidableEq κ]
    (prs : List (κ × EventTypePrior)) (k k' : κ) (p : EventTypePrior)
    (h : k' ≠ k) :
    findPrior (prs ++ [(k, p)]) k' = findPrior prs k' := by
  induction prs with
  | nil =>
      have hk : ¬ k = k' := fun hh => h hh.symm
      simp [findPrior, hk]
  | cons hd tl ih =>
      obtain ⟨k0, p0⟩ := hd
      by_cases hk : k0 = k'
      · simp [findPrior, hk]
      · simp [findPrior, if_neg hk, ih]

theorem setPrior_append_fresh {κ : Type} [DecidableEq κ]
    (prs : List (κ × EventTypePrior)) (k : κ) (p0 q : EventTypePrior)
    (h : findPrior prs k = none) :
    setPrior (prs ++ [(k, p0)]) k q = prs ++ [(k, q)] := by
  induction prs with
  | nil => simp [setPrior]
  | cons hd tl ih =>
      obtain ⟨k0, pp⟩ := hd
      by_cases hk : k0 = k
      · simp [findPrior, hk] at h
      · simp only [findPrior, if_neg hk] at h
        simp [setPrior, if_neg hk, ih h]

theorem sumOverStates_set {κ : Type} [DecidableEq κ] (et : EventType) :
    ∀ (prs : List (κ × EventTypePrior)) (k : κ) (p q : EventTypePrior),
      findPrior prs k = some p →
      sumOverStates (setPrior prs k q) et
        = sumOverStates prs et + countOf q et - countOf p et := by
  intro prs
  induction prs with
  | nil => intro k p q h; simp [findPrior] at h
  | cons hd tl ih =>
      intro k p q h
      obtain ⟨k0, p0⟩ := hd
      by_cases hk : k0 = k
      · simp [findPrior, hk] at h
        subst h
        simp [setPrior, hk, sumOverStates]
        ring
      · simp only [findPrior, if_neg hk] at h
        simp [setPrior, if_neg hk, sumOverStates] at ih ⊢
        rw [ih k p q h]
        ring

theorem sumOverStates_step {κ : Type} [DecidableEq κ]
    (key_fn : Event → κ) (s : StateEventTypePriors κ) (ev : Event)
    (et : EventType) :
    sumOverStates (StateEventTypePriors.step key_fn s ev).priors et
      = sumOverStates s.priors et
        + (if ev.event_type = et then 1 else 0) := by
  unfold StateEventTypePriors.step StateEventTypePriors.get_or_create
  cases h : findPrior s.priors (key_fn ev) with
  | some p =>
      simp only [h]
      rw [sumOverStates_set et s.priors (key_fn ev) p _ h,
        countOf_update_one]
      ring
  | none =>
      simp only [h]
      have hset := setPrior_append_fresh s.priors (key_fn ev)
        { alpha := s.alpha } (EventTypePrior.update_from_events
          { alpha := s.alpha } [ev]) h
      simp only [hset]
      have hfresh : countOf ({ alpha := s.alpha } : EventTypePrior) et = 0 := by
        simp [countOf, findCount_default]
      simp [sumOverStates, countOf_update_one, hfresh]

theorem sumOverStates_fold {κ : Type} [DecidableEq κ]
    (key_fn : Event → κ) (et : EventType) :
    ∀ (events : List Event) (s : StateEventTypePriors κ),
      sumOverStates (s.update_from_events events key_fn).priors et
        = sumOverStates s.priors et + countType events et := by
  intro events
  induction events with
  | nil =>
      intro s
      simp [StateEventTypePriors.update_from_events, countType]
  | cons ev rest ih =>
      intro s
      have step :
          s.update_from_events (ev :: rest) key_fn
            = (StateEventTypePriors.step key_fn s ev).update_from_events
                rest key_fn := by
        simp [StateEventTypePriors.update_from_events]
      rw [step, ih, sumOverStates_step]
      simp [countType]
      ring

theorem findCount_bump_self (et : EventType) :
    ∀ (cs : List (EventType × ℚ)) (c : ℚ), findCount cs et = some c →
      findCount (bump cs et) et = some (c + 1)
  | [], c, hc => by simp [findCount] at hc
  | (e, c0) :: tl, c, hc => by
      by_cases he : e = et
      · simp [findCount, he] at hc
        simp [bump, findCount, he, hc]
      · simp only [findCount, if_neg he] at hc
        simp [bump, findCount, if_neg he, findCount_bump_self et tl c hc]

theorem update_replicate_succ (p : EventTypePrior) (et : EventType) (n : ℕ) :
    p.update_from_events (List.replicate (n + 1) (sampleEvent et 0))
      = EventTypePrior.update_from_events
          { p with counts := bump p.counts et }
          (List.replicate n (sampleEvent et 0)) := by
  simp [EventTypePrior.update_from_events, List.replicate_succ, sampleEvent]

theorem update_replicate_facts (et : EventType) :
    ∀ (n : ℕ) (p : EventTypePrior) (c : ℚ),
      findCount p.counts et = some c →
      (findCount (p.update_from_events
          (List.replicate n (sampleEvent et 0))).counts et = some (c + n) ∧
       sumCounts (p.update_from_events
          (List.replicate n (sampleEvent et 0))).counts
         = sumCounts p.counts + n ∧
       (p.update_from_events
          (List.replicate n (sampleEvent et 0))).counts.length
         = p.counts.length ∧
       (p.update_from_events (List.replicate n (sampleEvent et 0))).alpha
         = p.alpha ∧
       ((∀ x ∈ p.counts, 0 ≤ x.2) →
        ∀ x ∈ (p.update_from_events
          (List.replicate n (sampleEvent et 0))).counts, 0 ≤ x.2))
  | 0, p, c, hc => by
      have hid : p.update_from_events (List.replicate 0 (sampleEvent et 0)) = p := by
        simp [EventTypePrior.update_from_events]
      rw [hid]
      refine ⟨by simp [hc], by simp, rfl, rfl, fun h => h⟩
  | n + 1, p, c, hc => by
      rw [update_replicate_succ]
      have hc1 : findCount (bump p.counts et) et = some (c + 1) :=
        findCount_bump_self et p.counts c hc
      obtain ⟨h1, h2, h3, h4, h5⟩ :=
        update_replicate_facts et n { p with counts := bump p.counts et }
          (c + 1) hc1
      refine ⟨?_, ?_, ?_, h4, ?_⟩
      · rw [h1]
        congr 1
        push_cast
        ring
      · rw [h2]
        simp only [sumCounts_bump]
        push_cast
        ring
      · rw [h3]
        exact length_bump p.counts et (by rw [hc]; rfl)
      · intro h
        exact h5 (bump_nonneg et p.counts h)

theorem posterior_default (a : ℚ) (ha : 0 < a) (et : EventType) :
    ({ alpha := a } : EventTypePrior).posterior_prob et = 1 / 10 := by
  have hc : findCount ({ alpha := a } : EventTypePrior).counts et = some 0 :=
    findCount_default et
  have hS : sumCounts ({ alpha := a } : EventTypePrior).counts = 0 := by
    norm_num [sumCounts, EventType.all]
  have hk : ({ alpha := a } : EventTypePrior).kOf = 10 := rfl
  unfold EventTypePrior.posterior_prob
  rw [hk, hc, hS]
  rw [if_neg (by push_cast; nlinarith)]
  rw [div_eq_div_iff (by push_cast; nlinarith) (by norm_num)]
  push_cast
  simp

theorem probs_pos (p : EventTypePrior) (ha : 0 < p.alpha)
    (hne : p.counts ≠ []) (hnn : ∀ x ∈ p.counts, 0 ≤ x.2) :
    p.probs = p.counts.map (fun ec =>
      (ec.1, (ec.2 + p.alpha)
        / (sumCounts p.counts + p.alpha * p.counts.length))) := by
  have hL0 : p.counts.length ≠ 0 := fun hh => hne (List.length_eq_zero.mp hh)
  have hk : p.kOf = p.counts.length := by
    unfold EventTypePrior.kOf
    rw [if_neg hL0]
  have hlen : (0 : ℚ) < (p.counts.length : ℚ) := by
    exact_mod_cast Nat.pos_of_ne_zero hL0
  have hden : (0 : ℚ)
      < sumCounts p.counts + p.alpha * (p.counts.length : ℚ) := by
    have := sumCounts_nonneg p.counts hnn
    nlinarith
  unfold EventTypePrior.probs
  rw [hk, if_neg (not_le.mpr hden)]

theorem probs_default (a : ℚ) (ha : 0 < a) :
    ({ alpha := a } : EventTypePrior).probs
      = EventType.all.map (fun et => (et, 1 / 10)) := by
  have hne : ({ alpha := a } : EventTypePrior).counts ≠ [] := by
    simp [EventType.all]
  have hnn : ∀ x ∈ ({ alpha := a } : EventTypePrior).counts, 0 ≤ x.2 := by
    intro x hx
    obtain ⟨et, -, rfl⟩ := List.mem_map.mp hx
    norm_num
  rw [probs_pos { alpha := a } ha hne hnn]
  have hc : ({ alpha := a } : EventTypePrior).counts
      = EventType.all.map (fun et => (et, (0 : ℚ))) := rfl
  have hS : sumCounts ({ alpha := a } : EventTypePrior).counts = 0 := by
    norm_num [sumCounts, EventType.all]
  have hL : (({ alpha := a } : EventTypePrior).counts.length : ℚ) = 10 := by
    norm_num [EventType.all]
  rw [hS, hL, hc, List.map_map]
  apply List.map_congr_left
  intro et _
  simp only [Function.comp_apply]
  have hval : ((0 : ℚ) + a) / (0 + a * 10) = 1 / 10 := by
    rw [zero_add, zero_add,
      div_eq_div_iff (by nlinarith) (by norm_num)]
    ring
  rw [hval]

theorem from_events_three_pass :
    EventTypePrior.from_events (List.replicate 3 (sampleEvent .PASS 0)) 1
      = { alpha := 1,
          counts := [(.PASS, 3), (.SHOT, 0), (.FOUL, 0), (.TURNOVER, 0),
            (.TACKLE, 0), (.DRIBBLE, 0), (.INTERCEPTION, 0), (.SAVE, 0),
            (.CLEARANCE, 0), (.OTHER, 0)] } := by
  norm_num [EventTypePrior.from_events, EventTypePrior.update_from_events,
    sampleEvent, EventType.all, bump, List.replicate_succ]

/-! ## Claims about the prior estimator -/

/-- C2: for every `EventTypePrior` and label, `posterior_prob(label)`
equals `(count[label] + alpha) / (Σcounts + alpha·K)` — `K` the number of
tracked labels, defaulting to the 10 canonical ones when none is tracked —
returning exactly `1/K` when that denominator is non-positive; and with
`alpha = 1` over the 10 canonical labels and 3 observed PASS events,
`posterior_prob(PASS) = 4/13` and `posterior_prob(SHOT) = 1/13`. -/
theorem claim_C2 :
    (∀ (p : EventTypePrior) (et : EventType),
      p.posterior_prob et = specPosterior p et) ∧
    (EventTypePrior.from_events
      (List.replicate 3 (sampleEvent .PASS 0)) 1).posterior_prob .PASS
      = 4 / 13 ∧
    (EventTypePrior.from_events
      (List.replicate 3 (sampleEvent .PASS 0)) 1).posterior_prob .SHOT
      = 1 / 13 :=
  ⟨fun _ _ => rfl,
   by
    rw [from_events_three_pass]
    norm_num [EventTypePrior.posterior_prob, EventTypePrior.kOf, sumCounts,
      findCount],
   by
    rw [from_events_three_pass]
    norm_num [EventTypePrior.posterior_prob, EventTypePrior.kOf, sumCounts,
      findCount]
    rw [if_neg (by decide : ¬ (EventType.PASS = EventType.SHOT))]
    norm_num⟩

/-- C3: for every prior with `alpha > 0` and non-negative counts over a
non-empty tracked-label set, the values of `probs()` sum exactly to 1, each
computed with the single shared denominator `Σcounts + alpha·K`; in the
zero-observation case every canonical label gets `1/K = 1/10`. -/
theorem claim_C3 :
    (∀ p : EventTypePrior, 0 < p.alpha → p.counts ≠ [] →
      (∀ x ∈ p.counts, 0 ≤ x.2) →
      ((p.probs.map (fun ec => ec.2)).sum = 1 ∧
       p.probs = p.counts.map (fun ec =>
         (ec.1, (ec.2 + p.alpha)
           / (sumCounts p.counts + p.alpha * p.counts.length))))) ∧
    (∀ a : ℚ, 0 < a →
      ({ alpha := a } : EventTypePrior).probs
        = EventType.all.map (fun et => (et, 1 / 10))) := by
  constructor
  · intro p ha hne hnn
    have hprobs := probs_pos p ha hne hnn
    refine ⟨?_, hprobs⟩
    have hL0 : p.counts.length ≠ 0 := fun hh => hne (List.length_eq_zero.mp hh)
    have hlen : (0 : ℚ) < (p.counts.length : ℚ) := by
      exact_mod_cast Nat.pos_of_ne_zero hL0
    have hden : (0 : ℚ)
        < sumCounts p.counts + p.alpha * (p.counts.length : ℚ) := by
      have := sumCounts_nonneg p.counts hnn
      nlinarith
    rw [hprobs, List.map_map]
    have hcomp : ((fun ec : EventType × ℚ => ec.2) ∘ (fun ec : EventType × ℚ =>
        (ec.1, (ec.2 + p.alpha)
          / (sumCounts p.counts + p.alpha * p.counts.length))))
        = fun ec : EventType × ℚ => (ec.2 + p.alpha)
          / (sumCounts p.counts + p.alpha * p.counts.length) := rfl
    rw [hcomp, list_sum_map_div, sum_map_add_const,
      div_eq_one_iff_eq (ne_of_gt hden)]
    ring
  · exact fun a ha => probs_default a ha

/-- Witness for C3 at the freshly constructed prior with `alpha = 1`. -/
theorem claim_C3_witness :
    ((({ alpha := 1 } : EventTypePrior)).probs.map (fun ec => ec.2)).sum
      = 1 :=
  (claim_C3.1 { alpha := 1 } (by norm_num) (by decide) (by decide)).1

/-- C4: with `alpha > 0` over the canonical labels, `posterior_prob` is
exactly `1/K = 1/10` with zero observations, and — holding `alpha` and all
other labels' counts fixed — strictly increasing in the number of observed
instances of the queried label. -/
theorem claim_C4 :
    (∀ (a : ℚ) (et : EventType), 0 < a →
      ({ alpha := a } : EventTypePrior).posterior_prob et = 1 / 10) ∧
    (∀ (p : EventTypePrior) (et : EventType) (c : ℚ) (m n : ℕ),
      0 < p.alpha → (∀ x ∈ p.counts, 0 ≤ x.2) →
      findCount p.counts et = some c → 2 ≤ p.counts.length → m < n →
      (p.update_from_events
        (List.replicate m (sampleEvent et 0))).posterior_prob et
        < (p.update_from_events
            (List.replicate n (sampleEvent et 0))).posterior_prob et) := by
  constructor
  · intro a et ha
    exact posterior_default a ha et
  · intro p et c m n hα hnn hc hL hmn
    obtain ⟨hfm, hsm, hlm, ham, _⟩ := update_replicate_facts et m p c hc
    obtain ⟨hfn, hsn, hln, han, _⟩ := update_replicate_facts et n p c hc
    have hS0 : 0 ≤ sumCounts p.counts := sumCounts_nonneg p.counts hnn
    have hcS : c ≤ sumCounts p.counts :=
      findCount_le_sumCounts et p.counts hnn c hc
    have hL0 : p.counts.length ≠ 0 := by omega
    have hLQ : (2 : ℚ) ≤ (p.counts.length : ℚ) := by exact_mod_cast hL
    have hmnQ : (m : ℚ) < (n : ℚ) := by exact_mod_cast hmn
    have hdm : (0 : ℚ) < sumCounts p.counts + (m : ℚ)
        + p.alpha * (p.counts.length : ℚ) := by nlinarith
    have hdn : (0 : ℚ) < sumCounts p.counts + (n : ℚ)
        + p.alpha * (p.counts.length : ℚ) := by nlinarith
    have hkm : (p.update_from_events
        (List.replicate m (sampleEvent et 0))).kOf = p.counts.length := by
      unfold EventTypePrior.kOf
      rw [hlm, if_neg hL0]
    have hkn : (p.update_from_events
        (List.replicate n (sampleEvent et 0))).kOf = p.counts.length := by
      unfold EventTypePrior.kOf
      rw [hln, if_neg hL0]
    have hvm : (p.update_from_events
        (List.replicate m (sampleEvent et 0))).posterior_prob et
        = (c + (m : ℚ) + p.alpha) / (sumCounts p.counts + (m : ℚ)
            + p.alpha * (p.counts.length : ℚ)) := by
      unfold EventTypePrior.posterior_prob
      rw [hkm, hfm, hsm, ham]
      rw [if_neg (by nlinarith)]
      simp only [Option.getD_some]
    have hvn : (p.update_from_events
        (List.replicate n (sampleEvent et 0))).posterior_prob et
        = (c + (n : ℚ) + p.alpha) / (sumCounts p.counts + (n : ℚ)
            + p.alpha * (p.counts.length : ℚ)) := by
      unfold EventTypePrior.posterior_prob
      rw [hkn, hfn, hsn, han]
      rw [if_neg (by nlinarith)]
      simp only [Option.getD_some]
    rw [hvm, hvn, div_lt_div_iff₀ hdm hdn]
    have hkey : (0 : ℚ) < sumCounts p.counts - c
        + p.alpha * ((p.counts.length : ℚ) - 1) := by nlinarith
    nlinarith [mul_pos (sub_pos.mpr hmnQ) hkey]

/-- Witness for C4: zero observations give `1/10`, and one PASS
observation strictly increases the PASS posterior. -/
theorem claim_C4_witness :
    ({ alpha := 1 } : EventTypePrior).posterior_prob .PASS = 1 / 10 ∧
    (({ alpha := 1 } : EventTypePrior).update_from_events
      (List.replicate 0 (sampleEvent .PASS 0))).posterior_prob .PASS
      < (({ alpha := 1 } : EventTypePrior).update_from_events
          (List.replicate 1 (sampleEvent .PASS 0))).posterior_prob .PASS :=
  ⟨claim_C4.1 1 .PASS (by norm_num),
   claim_C4.2 { alpha := 1 } .PASS 0 0 1 (by norm_num) (by decide)
     (by decide) (by decide) (by decide)⟩

/-- C5: for every event list and key function, summing a label's count
across all `StateEventTypePriors` keys equals that label's count in the
single unconditioned `EventTypePrior` built from the same events. -/
theorem claim_C5 (κ : Type) [DecidableEq κ] (events : List Event)
    (key_fn : Event → κ) (alpha : ℚ) (et : EventType) :
    sumOverStates
        (StateEventTypePriors.from_events events key_fn alpha).priors et
      = countOf (EventTypePrior.from_events events alpha) et := by
  unfold StateEventTypePriors.from_events EventTypePrior.from_events
  rw [sumOverStates_fold, countOf_fold]
  simp [sumOverStates, countOf, findCount_default]

/-- C10: `get_prior` on an absent key is not read-only: it stores and
returns a fresh prior with the collection's `alpha` and the ten canonical
labels at count zero, leaves every other key unchanged, and a subsequent
`get_prior` returns that same stored prior without further change. -/
theorem claim_C10 (κ : Type) [DecidableEq κ] (s : StateEventTypePriors κ)
    (k : κ) (h : findPrior s.priors k = none) :
    (s.get_prior k).2 = { alpha := s.alpha } ∧
    (s.get_prior k).2.alpha = s.alpha ∧
    (s.get_prior k).2.counts = EventType.all.map (fun et => (et, 0)) ∧
    (s.get_prior k).1.alpha = s.alpha ∧
    (s.get_prior k).1.priors = s.priors ++ [(k, (s.get_prior k).2)] ∧
    (∀ k', k' ≠ k →
      findPrior (s.get_prior k).1.priors k' = findPrior s.priors k') ∧
    findPrior (s.get_prior k).1.priors k = some ((s.get_prior k).2) ∧
    (s.get_prior k).1.get_prior k = ((s.get_prior k).1, (s.get_prior k).2) := by
  unfold StateEventTypePriors.get_prior StateEventTypePriors.get_or_create
  simp only [h]
  refine ⟨by trivial, by trivial, by trivial, by trivial, by trivial,
    ?_, ?_, ?_⟩
  · intro k' hk'
    exact findPrior_append_other s.priors k k' _ hk'
  · exact findPrior_append_self s.priors k _ h
  · simp [findPrior_append_self s.priors k _ h]

/-- Witness for C10 on an empty collection and the key `"zone"`. -/
theorem claim_C10_witness :
    ((({ alpha := 1/2 } : StateEventTypePriors String)).get_prior "zone").2
      = { alpha := 1/2 } :=
  (claim_C10 String { alpha := 1/2 } "zone" rfl).1

/-! ## Lemmas about arena access -/

theorem getD_set_ne {α : Type} (l : List α) (i j : Nat) (a d : α)
    (h : i ≠ j) : (l.set i a).getD j d = l.getD j d := by
  simp [List.getD_eq_getElem?_getD, List.getElem?_set_ne h]

theorem getD_set_self {α : Type} (l : List α) (i : Nat) (a d : α)
    (h : i < l.length) : (l.set i a).getD i d = a := by
  simp [List.getD_eq_getElem?_getD, List.getElem?_set_self h]

theorem getD_append_left {α : Type} (l l2 : List α) (j : Nat) (d : α)
    (h : j < l.length) : (l ++ l2).getD j d = l.getD j d := by
  simp [List.getD_eq_getElem?_getD, List.getElem?_append_left h]

theorem getD_append_self {α : Type} (l : List α) (a d : α) :
    (l ++ [a]).getD l.length d = a := by
  simp [List.getD_eq_getElem?_getD]

/-- `applyUpdate` in closed form: fields named in the payload are replaced,
every other field — the link fields in particular — is untouched. -/
theorem applyUpdate_eq (e : Event) (u : UpdateFields) :
    applyUpdate e u =
      { match_time := u.match_time.getD e.match_time,
        event_type := u.event_type.getD e.event_type,
        team := u.team.getD e.team,
        player := u.player.getD e.player,
        description := u.description.getD e.description,
        x := u.x.getD e.x,
        y := u.y.getD e.y,
        tags := u.tags.getD e.tags,
        prev_in_possession := e.prev_in_possession,
        next_in_possession := e.next_in_possession,
        possession := e.possession } := by
  rcases u with ⟨mt, et, tm, pl, de, ux, uy, tg⟩
  cases mt <;> cases et <;> cases tm <;> cases pl <;> cases de <;>
    cases ux <;> cases uy <;> cases tg <;> rfl

/-- C7: a valid `update_event` (match_time included) mutates only the
addressed event, replacing exactly the fields named in the payload and
keeping its link fields; the match-wide sequence is not re-sorted — the id
list, hence every event's position, is unchanged — and all other events and
all possessions are untouched. -/
theorem claim_C7 (m : Match) (index : Nat) (u : UpdateFields)
    (h : index < m.events.length)
    (ht : m.events.getD index 0 < m.evArena.length) :
    ∃ m', m.update_event index u = some m' ∧
      m'.events = m.events ∧
      m'.possArena = m.possArena ∧
      m'.first_possession = m.first_possession ∧
      m'.last_possession = m.last_possession ∧
      m'.home_team = m.home_team ∧
      m'.away_team = m.away_team ∧
      m'.next_possession_id = m.next_possession_id ∧
      m'.evArena.length = m.evArena.length ∧
      (∀ j, j ≠ m.events.getD index 0 →
        m'.evArena.getD j default = m.evArena.getD j default) ∧
      m'.evArena.getD (m.events.getD index 0) default =
        { match_time := u.match_time.getD
            (m.evArena.getD (m.events.getD index 0) default).match_time,
          event_type := u.event_type.getD
            (m.evArena.getD (m.events.getD index 0) default).event_type,
          team := u.team.getD
            (m.evArena.getD (m.events.getD index 0) default).team,
          player := u.player.getD
            (m.evArena.getD (m.events.getD index 0) default).player,
          description := u.description.getD
            (m.evArena.getD (m.events.getD index 0) default).description,
          x := u.x.getD (m.evArena.getD (m.events.getD index 0) default).x,
          y := u.y.getD (m.evArena.getD (m.events.getD index 0) default).y,
          tags := u.tags.getD
            (m.evArena.getD (m.events.getD index 0) default).tags,
          prev_in_possession :=
            (m.evArena.getD (m.events.getD index 0) default).prev_in_possession,
          next_in_possession :=
            (m.evArena.getD (m.events.getD index 0) default).next_in_possession,
          possession :=
            (m.evArena.getD (m.events.getD index 0) default).possession } := by
  have hm' : m.update_event index u
      = some { m with evArena := (m.evArena.set (m.events.getD index 0)
          (applyUpdate (m.evArena.getD (m.events.getD index 0) default) u)) } := by
    rw [Match.update_event, if_pos h]
  refine ⟨_, hm', rfl, rfl, rfl, rfl, rfl, rfl, rfl, by simp, ?_, ?_⟩
  · intro j hj
    exact getD_set_ne m.evArena (m.events.getD index 0) j _ default
      (fun hh => hj hh.symm)
  · rw [getD_set_self m.evArena (m.events.getD index 0) _ default ht,
      applyUpdate_eq]

/-- Witness for C7: update `match_time` of the middle demo event. -/
theorem claim_C7_witness :
    ∃ m', demoMatch.update_event 1 { match_time := some 50 } = some m' ∧
      m'.events = demoMatch.events ∧
      m'.possArena = demoMatch.possArena ∧
      m'.first_possession = demoMatch.first_possession ∧
      m'.last_possession = demoMatch.last_possession ∧
      m'.home_team = demoMatch.home_team ∧
      m'.away_team = demoMatch.away_team ∧
      m'.next_possession_id = demoMatch.next_possession_id ∧
      m'.evArena.length = demoMatch.evArena.length ∧
      (∀ j, j ≠ demoMatch.events.getD 1 0 →
        m'.evArena.getD j default = demoMatch.evArena.getD j default) ∧
      m'.evArena.getD (demoMatch.events.getD 1 0) default =
        { match_time := (some (50 : ℚ)).getD
            (demoMatch.evArena.getD (demoMatch.events.getD 1 0) default).match_time,
          event_type := (none : Option EventType).getD
            (demoMatch.evArena.getD (demoMatch.events.getD 1 0) default).event_type,
          team := (none : Option String).getD
            (demoMatch.evArena.getD (demoMatch.events.getD 1 0) default).team,
          player := (none : Option (Option String)).getD
            (demoMatch.evArena.getD (demoMatch.events.getD 1 0) default).player,
          description := (none : Option (Option String)).getD
            (demoMatch.evArena.getD (demoMatch.events.getD 1 0) default).description,
          x := (none : Option (Option ℚ)).getD
            (demoMatch.evArena.getD (demoMatch.events.getD 1 0) default).x,
          y := (none : Option (Option ℚ)).getD
            (demoMatch.evArena.getD (demoMatch.events.getD 1 0) default).y,
          tags := (none : Option (List (String × Bool))).getD
            (demoMatch.evArena.getD (demoMatch.events.getD 1 0) default).tags,
          prev_in_possession :=
            (demoMatch.evArena.getD (demoMatch.events.getD 1 0) default).prev_in_possession,
          next_in_possession :=
            (demoMatch.evArena.getD (demoMatch.events.getD 1 0) default).next_in_possession,
          possession :=
            (demoMatch.evArena.getD (demoMatch.events.getD 1 0) default).possession } :=
  claim_C7 demoMatch 1 { match_time := some 50 } (by decide) (by decide)

/-! ## Lemmas about StatsBomb ingestion -/

theorem collectNames_mono :
    ∀ (recs : List SBRecord) (names : List String),
      names.length ≤ (collectNames names recs).length
  | [], names => le_refl _
  | r :: rs, names => by
      unfold collectNames
      cases hstr : strTruthy r.team_name with
      | none => exact collectNames_mono rs names
      | some n =>
          by_cases hmem : n ∈ names
          · simp only [if_pos hmem]
            exact collectNames_mono rs names
          · simp only [if_neg hmem]
            calc names.length ≤ (names ++ [n]).length := by simp
              _ ≤ _ := collectNames_mono rs (names ++ [n])

theorem inferLoop_eq_min :
    ∀ (recs : List SBRecord) (names : List String), names.length < 2 →
      (inferNamesLoop names recs).length
        = min 2 (collectNames names recs).length
  | [], names => by
      intro h
      simp [inferNamesLoop, collectNames]
      omega
  | r :: rs, names => by
      intro h
      unfold inferNamesLoop collectNames
      cases hstr : strTruthy r.team_name with
      | none =>
          have h2 : ¬ 2 ≤ names.length := by omega
          simp only [if_neg h2]
          exact inferLoop_eq_min rs names h
      | some n =>
          by_cases hmem : n ∈ names
          · simp only [if_pos hmem]
            have h2 : ¬ 2 ≤ names.length := by omega
            simp only [if_neg h2]
            exact inferLoop_eq_min rs names h
          · simp only [if_neg hmem]
            by_cases h2 : 2 ≤ (names ++ [n]).length
            · simp only [if_pos h2]
              have hlen : (names ++ [n]).length = 2 := by
                simp at h2 ⊢
                omega
              have hcol := collectNames_mono rs (names ++ [n])
              rw [hlen] at hcol ⊢
              omega
            · simp only [if_neg h2]
              have hlt : (names ++ [n]).length < 2 := by omega
              exact inferLoop_eq_min rs (names ++ [n]) hlt

theorem inferTeamNames_iff (recs : List SBRecord) :
    (∃ t, inferTeamNames recs = Except.ok t)
      ↔ 2 ≤ (collectNames [] recs).length := by
  have hmin := inferLoop_eq_min recs [] (by norm_num)
  unfold inferTeamNames
  cases hL : inferNamesLoop [] recs with
  | nil =>
      rw [hL] at hmin
      simp at hmin
      simp
      omega
  | cons a tl =>
      cases tl with
      | nil =>
          rw [hL] at hmin
          simp at hmin
          simp
          omega
      | cons b tl2 =>
          cases tl2 with
          | nil =>
              rw [hL] at hmin
              simp at hmin
              simp
              omega
          | cons c tl3 =>
              rw [hL] at hmin
              exfalso
              simp at hmin
              omega

/-- C8 (counterexample to the claim as stated): with two records whose team
names infer fine but whose second record is missing its `second` timing
field, ingestion nevertheless succeeds, producing a match holding exactly
the one complete event — a missing timing field is not fatal. -/
theorem claim_C8_counterexample :
    (matchFromStatsbombEvents sbTestRecords {}).toOption.map
      (fun mm => mm.events.length) = some 1 := by
  decide

/-- C8 (amended): ingestion produces a match exactly when at least two
distinct truthy team names occur among the records (so a failed inference
yields no match at all), while a record missing its `minute` or `second`
field is merely skipped: on `sbTestRecords` ingestion succeeds with exactly
one event. -/
theorem claim_C8 :
    (∀ (recs : List SBRecord) (config : StatsBombConfig),
      (∃ mm, matchFromStatsbombEvents recs config = Except.ok mm)
        ↔ 2 ≤ (collectNames [] recs).length) ∧
    (matchFromStatsbombEvents sbTestRecords {}).toOption.map
      (fun mm => mm.events.length) = some 1 := by
  constructor
  · intro recs config
    rw [← inferTeamNames_iff recs]
    unfold matchFromStatsbombEvents
    cases hI : inferTeamNames recs with
    | ok t =>
        constructor
        · intro _
          exact ⟨t, rfl⟩
        · intro _
          exact ⟨_, rfl⟩
    | error e =>
        constructor
        · rintro ⟨mm, hmm⟩
          simp [Except.map] at hmm
        · rintro ⟨t, ht⟩
          simp at ht
  · decide

/-- Witness for C8 on a record list with a single truthy team name:
ingestion yields no match. -/
theorem claim_C8_witness :
    ¬ (∃ mm, matchFromStatsbombEvents
        [({ team_name := some "Alpha" } : SBRecord)] {} = Except.ok mm) := by
  rw [claim_C8.1 [({ team_name := some "Alpha" } : SBRecord)] {}]
  decide

/-! ## Lemmas about the sorted match-wide event sequence -/

theorem scanIdx_le (arena : List Event) (t : ℚ) (events : List Nat) :
    ∀ idx : Nat, scanIdx arena t events idx ≤ idx
  | 0 => le_refl _
  | idx + 1 => by
      unfold scanIdx
      split
      · exact Nat.le_succ_of_le (scanIdx_le arena t events idx)
      · exact le_refl _

theorem scanIdx_gt (arena : List Event) (t : ℚ) (events : List Nat) :
    ∀ idx j : Nat, scanIdx arena t events idx ≤ j → j < idx →
      t < timeOf arena (events.getD j 0)
  | 0, j, _, hj => absurd hj (Nat.not_lt_zero j)
  | idx + 1, j, hle, hj => by
      unfold scanIdx at hle
      by_cases hcond : t < timeOf arena (events.getD idx 0)
      · rw [if_pos hcond] at hle
        by_cases hji : j = idx
        · subst hji
          exact hcond
        · exact scanIdx_gt arena t events idx j hle (by omega)
      · rw [if_neg hcond] at hle
        omega

theorem scanIdx_boundary (arena : List Event) (t : ℚ) (events : List Nat) :
    ∀ idx : Nat, 0 < scanIdx arena t events idx →
      ¬ t < timeOf arena
          (events.getD (scanIdx arena t events idx - 1) 0)
  | 0, h0 => absurd h0 (by simp [scanIdx])
  | idx + 1, h0 => by
      unfold scanIdx at h0 ⊢
      by_cases hcond : t < timeOf arena (events.getD idx 0)
      · rw [if_pos hcond] at h0 ⊢
        exact scanIdx_boundary arena t events idx h0
      · rw [if_neg hcond]
        simpa using hcond

theorem insertByTime_pairwise (arena : List Event) (t : ℚ) (evIdx : Nat)
    (events : List Nat) (hpair : events.Pairwise (evLt arena))
    (hbound : ∀ i ∈ events, i < evIdx) (ht : timeOf arena evIdx = t) :
    (insertByTime arena t evIdx events).Pairwise (evLt arena) := by
  unfold insertByTime
  set k := scanIdx arena t events events.length with hk
  have hkle : k ≤ events.length := scanIdx_le arena t events events.length
  have hdropgt : ∀ b ∈ events.drop k, t < timeOf arena b := by
    intro b hb
    obtain ⟨i, hi, hbi⟩ := List.mem_iff_getElem.mp hb
    rw [List.getElem_drop] at hbi
    have hj : k + i < events.length := by
      rw [List.length_drop] at hi
      omega
    have hgt := scanIdx_gt arena t events events.length (k + i)
      (by omega) hj
    rw [List.getD_eq_getElem?_getD, List.getElem?_eq_getElem hj,
      Option.getD_some, hbi] at hgt
    exact hgt
  have htakele : ∀ a ∈ events.take k, ¬ t < timeOf arena a := by
    intro a ha
    obtain ⟨j, hj, haj⟩ := List.mem_iff_getElem.mp ha
    have hjk : j < k := by
      rw [List.length_take] at hj
      omega
    have hjlen : j < events.length := by omega
    rw [List.getElem_take] at haj
    have hk0 : 0 < k := by omega
    have hbd := scanIdx_boundary arena t events events.length hk0
    rw [List.getD_eq_getElem?_getD,
      List.getElem?_eq_getElem (show k - 1 < events.length by omega),
      Option.getD_some] at hbd
    by_cases hjeq : j = k - 1
    · subst hjeq
      rw [haj] at hbd
      exact hbd
    · have hrel := List.pairwise_iff_getElem.mp hpair j (k - 1)
        hjlen (by omega) (by omega)
      rw [haj] at hrel
      intro hta
      rcases hrel with hlt | ⟨heq, _⟩
      · exact hbd (lt_trans hta hlt)
      · rw [heq] at hta
        exact hbd hta
  have hcross0 : ∀ a ∈ events.take k, ∀ b ∈ events.drop k,
      evLt arena a b := by
    have hp : (events.take k ++ events.drop k).Pairwise (evLt arena) := by
      rw [List.take_append_drop]
      exact hpair
    exact (List.pairwise_append.mp hp).2.2
  rw [List.append_assoc, List.singleton_append, List.pairwise_append]
  refine ⟨hpair.sublist (List.take_sublist k events), ?_, ?_⟩
  · rw [List.pairwise_cons]
    refine ⟨fun b hb => ?_, hpair.sublist (List.drop_sublist k events)⟩
    exact Or.inl (by rw [ht]; exact hdropgt b hb)
  · intro a ha b hb
    rcases List.mem_cons.mp hb with hbe | hbd
    · subst hbe
      have hle : timeOf arena a ≤ t := not_lt.mp (htakele a ha)
      rcases lt_or_eq_of_le hle with hlt | heq
      · exact Or.inl (by rw [ht]; exact hlt)
      · exact Or.inr ⟨by rw [ht, heq],
          hbound a (List.take_subset k events ha)⟩
    · exact hcross0 a ha b hbd

theorem insertByTime_mem (arena : List Event) (t : ℚ) (evIdx : Nat)
    (events : List Nat) :
    ∀ i ∈ insertByTime arena t evIdx events, i ∈ events ∨ i = evIdx := by
  intro i hi
  unfold insertByTime at hi
  rw [List.append_assoc, List.singleton_append] at hi
  rcases List.mem_append.mp hi with h1 | h2
  · exact Or.inl (List.take_subset _ events h1)
  · rcases List.mem_cons.mp h2 with he | hd
    · exact Or.inr he
    · exact Or.inl (List.drop_subset _ events hd)

theorem timeOf_set_next (arena : List Event) (le : Nat) (x : Option Nat)
    (i : Nat) :
    timeOf (arena.set le
      { arena.getD le default with next_in_possession := x }) i
      = timeOf arena i := by
  by_cases h : le = i
  · subst h
    by_cases hlt : le < arena.length
    · rw [timeOf, getD_set_self _ _ _ _ hlt]
      rfl
    · rw [List.set_eq_of_length_le (by omega)]
  · rw [timeOf, timeOf, getD_set_ne _ _ _ _ _ h]

theorem timeOf_append_left (arena : List Event) (ev : Event) (i : Nat)
    (h : i < arena.length) :
    timeOf (arena ++ [ev]) i = timeOf arena i := by
  rw [timeOf, timeOf, getD_append_left _ _ _ _ h]

theorem timeOf_append_self (arena : List Event) (ev : Event) :
    timeOf (arena ++ [ev]) arena.length = ev.match_time := by
  rw [timeOf, getD_append_self]

theorem new_possession_evArena (m : Match) (team : String) :
    (m.new_possession team).1.evArena = m.evArena ∧
    (m.new_possession team).1.events = m.events := by
  unfold Match.new_possession
  cases m.last_possession <;> simp

/-- One `add_event` call preserves the sortedness invariant of the
match-wide sequence: the new arena index is larger than every stored one,
existing events keep their `match_time`, and the backward-scan insertion
places the new id after every id with `match_time ≤` its own. -/
theorem sortedEvents_insert_general (oldArena arena1 : List Event)
    (events : List Nat) (mt : ℚ)
    (hlen : arena1.length = oldArena.length + 1)
    (hstable : ∀ i, i < oldArena.length → timeOf arena1 i = timeOf oldArena i)
    (hnew : timeOf arena1 oldArena.length = mt)
    (hpair : events.Pairwise (evLt oldArena))
    (hbound : ∀ i ∈ events, i < oldArena.length) :
    (insertByTime arena1 mt oldArena.length events).Pairwise (evLt arena1) ∧
    (∀ i ∈ insertByTime arena1 mt oldArena.length events,
      i < arena1.length) := by
  have hpair1 : events.Pairwise (evLt arena1) := by
    refine hpair.imp_of_mem ?_
    intro a b ha hb hab
    have hsa := hstable a (hbound a ha)
    have hsb := hstable b (hbound b hb)
    rcases hab with hlt | ⟨heq, hidx⟩
    · exact Or.inl (by rw [hsa, hsb]; exact hlt)
    · exact Or.inr ⟨by rw [hsa, hsb]; exact heq, hidx⟩
  constructor
  · exact insertByTime_pairwise arena1 mt oldArena.length events hpair1
      hbound hnew
  · intro i hi
    rcases insertByTime_mem arena1 mt oldArena.length events i hi with
      hmem | heq
    · have := hbound i hmem
      omega
    · omega

theorem sortedEvents_add_event (m : Match) (mt : ℚ) (et : EventType)
    (team : String) (poss : Option Nat) (pl desc : Option String)
    (x y : Option ℚ) (tags : List (String × Bool))
    (h : sortedEvents m) :
    sortedEvents (m.add_event mt et team poss pl desc x y tags).1 := by
  obtain ⟨hpair, hbound⟩ := h
  unfold Match.add_event
  cases poss with
  | some p =>
      simp only
      cases hle : (m.possArena.getD p default).last_event with
      | none =>
          exact sortedEvents_insert_general m.evArena _ m.events mt
            (by simp) (fun i hi => timeOf_append_left _ _ i hi)
            (timeOf_append_self _ _) hpair hbound
      | some le =>
          refine sortedEvents_insert_general m.evArena _ m.events mt
            (by simp) ?_ ?_ hpair hbound
          · intro i hi
            rw [timeOf_append_left _ _ i (by simpa using hi), timeOf_set_next]
          · have hS : (m.evArena.set le
                { m.evArena.getD le default with
                  next_in_possession := some m.evArena.length }).length
                = m.evArena.length := by simp
            have hT := timeOf_append_self (m.evArena.set le
              { m.evArena.getD le default with
                next_in_possession := some m.evArena.length })
              { match_time := mt, event_type := et, team := team,
                player := pl, description := desc, x := x, y := y,
                tags := tags, prev_in_possession := some le,
                possession := some p }
            rw [hS] at hT
            exact hT
  | none =>
      simp only
      obtain ⟨hA, hE⟩ := new_possession_evArena m team
      rw [hA, hE]
      cases hle : ((m.new_possession team).1.possArena.getD
          (m.new_possession team).2 default).last_event with
      | none =>
          exact sortedEvents_insert_general m.evArena _ m.events mt
            (by simp) (fun i hi => timeOf_append_left _ _ i hi)
            (timeOf_append_self _ _) hpair hbound
      | some le =>
          refine sortedEvents_insert_general m.evArena _ m.events mt
            (by simp) ?_ ?_ hpair hbound
          · intro i hi
            rw [timeOf_append_left _ _ i (by simpa using hi), timeOf_set_next]
          · have hS : (m.evArena.set le
                { m.evArena.getD le default with
                  next_in_possession := some m.evArena.length }).length
                = m.evArena.length := by simp
            have hT := timeOf_append_self (m.evArena.set le
              { m.evArena.getD le default with
                next_in_possession := some m.evArena.length })
              { match_time := mt, event_type := et, team := team,
                player := pl, description := desc, x := x, y := y,
                tags := tags, prev_in_possession := some le,
                possession := some (m.new_possession team).2 }
            rw [hS] at hT
            exact hT

theorem sortedEvents_runAdds :
    ∀ (calls : List AddCall) (m : Match), sortedEvents m →
      sortedEvents (runAdds m calls)
  | [], m, h => h
  | c :: rest, m, h => by
      have hstep := sortedEvents_add_event m c.match_time c.event_type
        c.team c.possession c.player c.description c.x c.y c.tags h
      have : runAdds m (c :: rest)
          = runAdds (m.add_event c.match_time c.event_type c.team
              c.possession c.player c.description c.x c.y c.tags).1 rest := by
        simp [runAdds]
      rw [this]
      exact sortedEvents_runAdds rest _ hstep

/-- C1: after any sequence of `add_event` calls on a fresh match (no
in-place `match_time` mutation), `iter_events()` is sorted: pairwise, each
earlier event has a strictly smaller `match_time`, or an equal `match_time`
and a smaller insertion index (arena indices are handed out in insertion
order, so ties keep insertion order); and adding events with times 10, 5,
20 yields them with times [5, 10, 20]. -/
theorem claim_C1 :
    (∀ (home away : String) (calls : List AddCall),
      (runAdds (Match.init home away) calls).iter_events.Pairwise
        (evLt (runAdds (Match.init home away) calls).evArena)) ∧
    ((runAdds (Match.init "Team A" "Team B")
        [{ match_time := 10, team := "Team A" },
         { match_time := 5, team := "Team A" },
         { match_time := 20, team := "Team A" }]).iter_events.map
      (timeOf (runAdds (Match.init "Team A" "Team B")
        [{ match_time := 10, team := "Team A" },
         { match_time := 5, team := "Team A" },
         { match_time := 20, team := "Team A" }]).evArena)
      = [5, 10, 20]) := by
  constructor
  · intro home away calls
    have hinit : sortedEvents (Match.init home away) := by
      constructor
      · exact List.Pairwise.nil
      · intro i hi
        simp [Match.init] at hi
    exact (sortedEvents_runAdds calls (Match.init home away) hinit).1
  · decide

/-! ## Lemmas about doubly-linked possession chains -/

theorem headOr_eq_or (l : List Nat) (nxt : Option Nat) :
    headOr l nxt = l.head?.or nxt := by
  cases l <;> simp [headOr]

theorem lastOr_eq_or (l : List Nat) (prv : Option Nat) :
    lastOr l prv = l.getLast?.or prv := by
  cases h : l.getLast? <;> simp [lastOr, h]

theorem headOr_append (l₁ l₂ : List Nat) (nxt : Option Nat) :
    headOr (l₁ ++ l₂) nxt = headOr l₁ (headOr l₂ nxt) := by
  rw [headOr_eq_or, headOr_eq_or, headOr_eq_or, List.head?_append,
    Option.or_assoc]

theorem lastOr_cons (i : Nat) (l : List Nat) (prv : Option Nat) :
    lastOr (i :: l) prv = lastOr l (some i) := by
  rw [lastOr_eq_or, lastOr_eq_or, List.getLast?_cons]
  cases h : l.getLast? <;> simp

theorem lastOr_none (l : List Nat) : lastOr l none = l.getLast? := by
  rw [lastOr_eq_or]
  cases h : l.getLast? <;> simp

theorem chainSeg_append (arena : List Event) (nxt : Option Nat)
    (l₂ : List Nat) :
    ∀ (l₁ : List Nat) (prv : Option Nat),
      chainSeg arena prv nxt (l₁ ++ l₂) ↔
        chainSeg arena prv (headOr l₂ nxt) l₁ ∧
        chainSeg arena (lastOr l₁ prv) nxt l₂
  | [], prv => by
      simp [chainSeg, lastOr]
  | i :: l₁, prv => by
      rw [List.cons_append]
      show (_ ∧ _ ∧ chainSeg arena (some i) nxt (l₁ ++ l₂)) ↔ _
      rw [chainSeg_append arena nxt l₂ l₁ (some i)]
      rw [lastOr_cons]
      constructor
      · rintro ⟨h1, h2, h3, h4⟩
        refine ⟨⟨h1, ?_, h3⟩, h4⟩
        rw [h2, headOr_append]
      · rintro ⟨⟨h1, h2, h3⟩, h4⟩
        refine ⟨h1, ?_, h3, h4⟩
        rw [h2, ← headOr_append]

theorem chainSeg_congr (arena arena' : List Event) :
    ∀ (ids : List Nat) (prv nxt : Option Nat),
      (∀ i ∈ ids,
        (arena'.getD i default).prev_in_possession
          = (arena.getD i default).prev_in_possession ∧
        (arena'.getD i default).next_in_possession
          = (arena.getD i default).next_in_possession) →
      chainSeg arena prv nxt ids → chainSeg arena' prv nxt ids
  | [], prv, nxt, _, _ => trivial
  | i :: rest, prv, nxt, heq, hseg => by
      obtain ⟨h1, h2, h3⟩ := hseg
      obtain ⟨hp, hn⟩ := heq i (by simp)
      exact ⟨hp.trans h1, hn.trans h2,
        chainSeg_congr arena arena' rest (some i) nxt
          (fun j hj => heq j (by simp [hj])) h3⟩

theorem iterFwd_chain (arena : List Event) :
    ∀ (ids : List Nat) (prv : Option Nat) (fuel : Nat),
      chainSeg arena prv none ids → ids.length ≤ fuel →
      iterFwd arena fuel ids.head? = ids
  | [], _, fuel, _, _ => by cases fuel <;> rfl
  | i :: rest, prv, fuel, hseg, hlen => by
      obtain ⟨_, h2, h3⟩ := hseg
      cases fuel with
      | zero => simp at hlen
      | succ f =>
          show i :: iterFwd arena f _ = i :: rest
          rw [h2, headOr_eq_or, Option.or_none]
          rw [iterFwd_chain arena rest (some i) f h3 (by simpa using hlen)]

theorem iterBwd_chain (arena : List Event) (ids : List Nat) :
    ∀ (nxt : Option Nat) (fuel : Nat),
      chainSeg arena none nxt ids → ids.length ≤ fuel →
      iterBwd arena fuel ids.getLast? = ids.reverse := by
  induction ids using List.reverseRecOn with
  | nil =>
      intro nxt fuel _ _
      cases fuel <;> rfl
  | append_singleton init lastE ih =>
      intro nxt fuel hseg hlen
      rw [chainSeg_append arena nxt [lastE] init none] at hseg
      obtain ⟨hinit, hprev, hnext, -⟩ := hseg
      cases fuel with
      | zero => simp at hlen
      | succ f =>
          rw [List.getLast?_concat]
          show lastE :: iterBwd arena f _ = (init ++ [lastE]).reverse
          rw [hprev, lastOr_none]
          rw [ih (headOr [lastE] nxt) f hinit
            (by simp at hlen ⊢; omega)]
          simp

theorem length_le_of_nodup_bound (ids : List Nat) (n : Nat)
    (hnd : ids.Nodup) (hb : ∀ i ∈ ids, i < n) : ids.length ≤ n := by
  classical
  have hsub : ids.toFinset ⊆ Finset.range n := by
    intro i hi
    rw [List.mem_toFinset] at hi
    rw [Finset.mem_range]
    exact hb i hi
  have hcard := Finset.card_le_card hsub
  rw [List.toFinset_card_of_nodup hnd, Finset.card_range] at hcard
  exact hcard

theorem relinkPossession_frame (pos : PossessionNode) (t : Nat)
    (tEv : Event) :
    (relinkPossession pos t tEv).id = pos.id ∧
    (relinkPossession pos t tEv).team_in_possession
      = pos.team_in_possession ∧
    (relinkPossession pos t tEv).prev_possession = pos.prev_possession ∧
    (relinkPossession pos t tEv).next_possession = pos.next_possession := by
  simp only [relinkPossession]
  split_ifs <;> exact ⟨rfl, rfl, rfl, rfl⟩

theorem relinkPossession_first (pos : PossessionNode) (t : Nat)
    (tEv : Event) (l₁ l₂ : List Nat)
    (hfirst : pos.first_event = (l₁ ++ t :: l₂).head?)
    (hnext : tEv.next_in_possession = headOr l₂ none)
    (hnt1 : t ∉ l₁) :
    (relinkPossession pos t tEv).first_event = (l₁ ++ l₂).head? := by
  have hkeep : ∀ q : PossessionNode,
      ((if q.last_event = some t then
        { q with last_event := tEv.prev_in_possession } else q).first_event)
      = q.first_event := by
    intro q
    split_ifs <;> rfl
  simp only [relinkPossession]
  rw [hkeep]
  cases l₁ with
  | nil =>
      rw [if_pos (by rw [hfirst]; simp)]
      show tEv.next_in_possession = _
      rw [hnext, headOr_eq_or]
      simp
  | cons x xs =>
      have hx : pos.first_event = some x := by rw [hfirst]; simp
      rw [if_neg (by
        rw [hx]
        intro hh
        injection hh with hh
        exact hnt1 (by rw [← hh]; exact List.mem_cons_self x xs))]
      rw [hx]
      simp

theorem relinkPossession_last (pos : PossessionNode) (t : Nat)
    (tEv : Event) (l₁ l₂ : List Nat)
    (hlast : pos.last_event = (l₁ ++ t :: l₂).getLast?)
    (hprev : tEv.prev_in_possession = lastOr l₁ none)
    (hnt2 : t ∉ l₂) :
    (relinkPossession pos t tEv).last_event = (l₁ ++ l₂).getLast? := by
  have hkeep : ∀ v : Option Nat,
      ((if pos.first_event = some t then
        { pos with first_event := v } else pos).last_event)
      = pos.last_event := by
    intro v
    split_ifs <;> rfl
  simp only [relinkPossession]
  rcases l₂.eq_nil_or_concat' with h2 | ⟨init, z, h2⟩ <;> subst h2
  · have hl : pos.last_event = some t := by
      rw [hlast]
      exact List.getLast?_concat l₁
    rw [hkeep, if_pos hl]
    show tEv.prev_in_possession = _
    rw [hprev, lastOr_none]
    simp
  · have hzmem : z ∈ init ++ [z] := by simp
    have hzt : z ≠ t := fun h => hnt2 (by rw [← h]; exact hzmem)
    have hl : pos.last_event = some z := by
      rw [hlast,
        show l₁ ++ t :: (init ++ [z]) = (l₁ ++ t :: init) ++ [z] by simp]
      exact List.getLast?_concat _
    rw [hkeep, if_neg (by
      rw [hl]
      intro hh
      injection hh with hh
      exact hzt hh)]
    rw [hkeep, hl,
      show l₁ ++ (init ++ [z]) = (l₁ ++ init) ++ [z] by simp,
      List.getLast?_concat]

theorem relink_spec (arena : List Event) (t : Nat) (l₁ l₂ : List Nat)
    (hseg : chainSeg arena none none (l₁ ++ t :: l₂))
    (hnd : (l₁ ++ t :: l₂).Nodup)
    (hb : ∀ i ∈ l₁ ++ t :: l₂, i < arena.length) :
    chainSeg (relinkArena arena t) none none (l₁ ++ l₂) ∧
    (relinkArena arena t).length = arena.length ∧
    (∀ j, some j ≠ (arena.getD t default).prev_in_possession →
      some j ≠ (arena.getD t default).next_in_possession →
      (relinkArena arena t).getD j default = arena.getD j default) ∧
    (∀ a, lastOr l₁ none = some a →
      (relinkArena arena t).getD a default
        = { arena.getD a default with
            next_in_possession := headOr l₂ none }) ∧
    (∀ b, headOr l₂ none = some b →
      (relinkArena arena t).getD b default
        = { arena.getD b default with
            prev_in_possession := lastOr l₁ none }) := by
  obtain ⟨hnd1, hndc, hdisj⟩ := List.nodup_append.mp hnd
  have hnt1 : t ∉ l₁ := fun h => hdisj h (List.mem_cons_self t l₂)
  obtain ⟨hnt2, hnd2⟩ := List.nodup_cons.mp hndc
  have hdisj12 : ∀ x ∈ l₁, x ∉ l₂ := fun x hx hx2 =>
    hdisj hx (List.mem_cons_of_mem t hx2)
  rw [chainSeg_append arena none (t :: l₂) l₁ none] at hseg
  obtain ⟨hseg1, hseg2⟩ := hseg
  obtain ⟨hprev_t, hnext_t, hseg3⟩ := hseg2
  simp only [headOr] at hseg1 hnext_t
  rcases l₁.eq_nil_or_concat' with h1 | ⟨r₁, a, h1⟩ <;> subst h1
  · -- no predecessor
    have hP : (arena.getD t default).prev_in_possession = none := by
      rw [hprev_t]; rfl
    cases l₂ with
    | nil =>
        have hN : (arena.getD t default).next_in_possession = none := by
          rw [hnext_t]
        have hA : relinkArena arena t = arena := by
          simp only [relinkArena, hP, hN]
        rw [hA]
        refine ⟨trivial, rfl, fun j _ _ => rfl, ?_, ?_⟩
        · intro a ha
          simp [lastOr] at ha
        · intro b hbb
          simp [headOr] at hbb
    | cons b r₂ =>
        have hN : (arena.getD t default).next_in_possession = some b := by
          rw [hnext_t]
        obtain ⟨hbprev, hbnext, hseg3r⟩ := hseg3
        have hb_lt : b < arena.length := hb b (by simp)
        have e_b : (relinkArena arena t).getD b default
            = { arena.getD b default with prev_in_possession := none } := by
          simp only [relinkArena, hP, hN]
          exact getD_set_self arena b _ default hb_lt
        refine ⟨?_, ?_, ?_, ?_, ?_⟩
        · show chainSeg _ none none ([] ++ b :: r₂)
          rw [List.nil_append]
          refine ⟨by rw [e_b], by rw [e_b]; exact hbnext, ?_⟩
          refine chainSeg_congr arena _ r₂ (some b) none (fun j hj => ?_)
            hseg3r
          have hjb : b ≠ j := fun hh => (List.nodup_cons.mp hnd2).1
            (by rw [hh]; exact hj)
          simp only [relinkArena, hP, hN]
          rw [getD_set_ne arena b j _ default hjb]
          exact ⟨rfl, rfl⟩
        · simp only [relinkArena, hP, hN]
          simp
        · intro j _ hj2
          have hjb : b ≠ j := fun hh => hj2 (by rw [hN, hh])
          simp only [relinkArena, hP, hN]
          exact getD_set_ne arena b j _ default hjb
        · intro a ha
          simp [lastOr] at ha
        · intro b' hbb
          have hbb' : b' = b := by
            simp [headOr] at hbb
            omega
          subst hbb'
          rw [e_b]
          rfl
  · -- predecessor a at the tail of l₁ = r₁ ++ [a]
    have hP : (arena.getD t default).prev_in_possession = some a := by
      rw [hprev_t, lastOr_eq_or, List.getLast?_concat]
      rfl
    have ha_mem : a ∈ r₁ ++ [a] := by simp
    have ha_lt : a < arena.length := hb a (by simp)
    have hanr : a ∉ r₁ := by
      have := List.nodup_append.mp hnd1
      exact fun hh => this.2.2 hh (by simp)
    rw [chainSeg_append arena (some t) [a] r₁ none] at hseg1
    obtain ⟨hseg1r, haprev, hanext, -⟩ := hseg1
    simp only [headOr] at hseg1r hanext
    cases l₂ with
    | nil =>
        have hN : (arena.getD t default).next_in_possession = none := by
          rw [hnext_t]
        have e_a : (relinkArena arena t).getD a default
            = { arena.getD a default with
                next_in_possession := none } := by
          simp only [relinkArena, hP, hN]
          exact getD_set_self arena a _ default ha_lt
        refine ⟨?_, ?_, ?_, ?_, ?_⟩
        · show chainSeg _ none none ((r₁ ++ [a]) ++ [])
          rw [List.append_nil]
          rw [chainSeg_append _ none [a] r₁ none]
          simp only [headOr]
          refine ⟨?_, by rw [e_a]; exact haprev, by rw [e_a]; rfl, trivial⟩
          refine chainSeg_congr arena _ r₁ none (some a) (fun j hj => ?_)
            hseg1r
          have hja : a ≠ j := fun hh => hanr (by rw [hh]; exact hj)
          simp only [relinkArena, hP, hN]
          rw [getD_set_ne arena a j _ default hja]
          exact ⟨rfl, rfl⟩
        · simp only [relinkArena, hP, hN]
          simp
        · intro j hj1 _
          have hja : a ≠ j := fun hh => hj1 (by rw [hP, hh])
          simp only [relinkArena, hP, hN]
          exact getD_set_ne arena a j _ default hja
        · intro a' ha'
          have haa : a' = a := by
            rw [lastOr_eq_or, List.getLast?_concat] at ha'
            simp at ha'
            omega
          subst haa
          exact e_a
        · intro b hbb
          simp [headOr] at hbb
    | cons b r₂ =>
        have hN : (arena.getD t default).next_in_possession = some b := by
          rw [hnext_t]
        obtain ⟨hbprev, hbnext, hseg3r⟩ := hseg3
        have hb_lt : b < arena.length := hb b (by simp)
        have hab : a ≠ b := fun hh => hdisj12 a ha_mem
          (by rw [hh]; exact List.mem_cons_self b r₂)
        have hbr2 : b ∉ r₂ := (List.nodup_cons.mp hnd2).1
        have e1_b : (arena.set a
            { arena.getD a default with
              next_in_possession := some b }).getD b default
            = arena.getD b default :=
          getD_set_ne arena a b _ default hab
        have e_b : (relinkArena arena t).getD b default
            = { arena.getD b default with
                prev_in_possession := some a } := by
          simp only [relinkArena, hP, hN]
          rw [getD_set_self _ b _ default (by simpa using hb_lt), e1_b]
        have e_a : (relinkArena arena t).getD a default
            = { arena.getD a default with
                next_in_possession := some b } := by
          simp only [relinkArena, hP, hN]
          rw [getD_set_ne _ b a _ default (fun hh => hab hh.symm),
            getD_set_self arena a _ default ha_lt]
        have e_other : ∀ j, a ≠ j → b ≠ j →
            (relinkArena arena t).getD j default
              = arena.getD j default := by
          intro j hja hjb
          simp only [relinkArena, hP, hN]
          rw [getD_set_ne _ b j _ default hjb,
            getD_set_ne arena a j _ default hja]
        refine ⟨?_, ?_, ?_, ?_, ?_⟩
        · rw [chainSeg_append _ none (b :: r₂) (r₁ ++ [a]) none]
          simp only [headOr]
          constructor
          · rw [chainSeg_append _ (some b) [a] r₁ none]
            simp only [headOr]
            refine ⟨?_, by rw [e_a]; exact haprev, by rw [e_a]; rfl, trivial⟩
            refine chainSeg_congr arena _ r₁ none (some a) (fun j hj => ?_)
              hseg1r
            have hja : a ≠ j := fun hh => hanr (by rw [hh]; exact hj)
            have hjb : b ≠ j := fun hh => hdisj12 j
              (List.mem_append_left [a] hj)
              (by rw [← hh]; exact List.mem_cons_self b r₂)
            rw [e_other j hja hjb]
            exact ⟨rfl, rfl⟩
          · rw [show lastOr (r₁ ++ [a]) none = some a by
              rw [lastOr_eq_or, List.getLast?_concat]; rfl]
            refine ⟨by rw [e_b], by rw [e_b]; exact hbnext, ?_⟩
            refine chainSeg_congr arena _ r₂ (some b) none (fun j hj => ?_)
              hseg3r
            have hjb : b ≠ j := fun hh => hbr2 (by rw [hh]; exact hj)
            have hja : a ≠ j := fun hh => hdisj12 a ha_mem
              (by rw [hh]; exact List.mem_cons_of_mem b hj)
            rw [e_other j hja hjb]
            exact ⟨rfl, rfl⟩
        · simp only [relinkArena, hP, hN]
          simp
        · intro j hj1 hj2
          have hja : a ≠ j := fun hh => hj1 (by rw [hP, hh])
          have hjb : b ≠ j := fun hh => hj2 (by rw [hN, hh])
          exact e_other j hja hjb
        · intro a' ha'
          have haa : a' = a := by
            rw [lastOr_eq_or, List.getLast?_concat] at ha'
            simp at ha'
            omega
          subst haa
          exact e_a
        · intro b' hbb
          have hbb' : b' = b := by
            simp [headOr] at hbb
            omega
          subst hbb'
          rw [show lastOr (r₁ ++ [a]) none = some a from by
            rw [lastOr_eq_or, List.getLast?_concat]; rfl]
          exact e_b

theorem delete_event_spec (m : Match) (index : Nat) (p t : Nat)
    (l₁ l₂ : List Nat)
    (hidx : index < m.events.length)
    (ht : m.events.getD index 0 = t)
    (hp : p < m.possArena.length)
    (hseg : chainSeg m.evArena none none (l₁ ++ t :: l₂))
    (hfirst : (m.possArena.getD p default).first_event
      = (l₁ ++ t :: l₂).head?)
    (hlast : (m.possArena.getD p default).last_event
      = (l₁ ++ t :: l₂).getLast?)
    (hnd : (l₁ ++ t :: l₂).Nodup)
    (hb : ∀ i ∈ l₁ ++ t :: l₂, i < m.evArena.length ∧
      (m.evArena.getD i default).possession = some p) :
    m.delete_event index = some
      { m with
        evArena := relinkArena m.evArena t,
        possArena := (m.possArena.set p
          (relinkPossession (m.possArena.getD p default) t
            (m.evArena.getD t default))),
        events := m.events.erase t } ∧
    chainSeg (relinkArena m.evArena t) none none (l₁ ++ l₂) ∧
    (relinkArena m.evArena t).length = m.evArena.length ∧
    ((m.possArena.set p
        (relinkPossession (m.possArena.getD p default) t
          (m.evArena.getD t default))).getD p default).first_event
      = (l₁ ++ l₂).head? ∧
    ((m.possArena.set p
        (relinkPossession (m.possArena.getD p default) t
          (m.evArena.getD t default))).getD p default).last_event
      = (l₁ ++ l₂).getLast? ∧
    ((m.possArena.set p
        (relinkPossession (m.possArena.getD p default) t
          (m.evArena.getD t default))).getD p default).id
      = (m.possArena.getD p default).id ∧
    ((m.possArena.set p
        (relinkPossession (m.possArena.getD p default) t
          (m.evArena.getD t default))).getD p default).team_in_possession
      = (m.possArena.getD p default).team_in_possession ∧
    (∀ q, q ≠ p →
      (m.possArena.set p
        (relinkPossession (m.possArena.getD p default) t
          (m.evArena.getD t default))).getD q default
        = m.possArena.getD q default) ∧
    (∀ j, some j ≠ (m.evArena.getD t default).prev_in_possession →
      some j ≠ (m.evArena.getD t default).next_in_possession →
      (relinkArena m.evArena t).getD j default
        = m.evArena.getD j default) ∧
    (∀ i ∈ l₁ ++ l₂, i < (relinkArena m.evArena t).length ∧
      ((relinkArena m.evArena t).getD i default).possession = some p) ∧
    (∀ a b r₁ r₂, l₁ = r₁ ++ [a] → l₂ = b :: r₂ →
      ((relinkArena m.evArena t).getD a default).next_in_possession
        = some b ∧
      ((relinkArena m.evArena t).getD b default).prev_in_possession
        = some a) := by
  have htmem : t ∈ l₁ ++ t :: l₂ := by simp
  have htposs := (hb t htmem).2
  obtain ⟨hnd1, hndc, hdisj⟩ := List.nodup_append.mp hnd
  have hnt1 : t ∉ l₁ := fun h => hdisj h (List.mem_cons_self t l₂)
  obtain ⟨hnt2, hnd2⟩ := List.nodup_cons.mp hndc
  have hsegA := hseg
  rw [chainSeg_append m.evArena none (t :: l₂) l₁ none] at hsegA
  obtain ⟨-, hprev_t, hnext_t, -⟩ := hsegA
  have hnext_t' := hnext_t
  obtain ⟨hchain, hlen, hframe, h4a, h4b⟩ :=
    relink_spec m.evArena t l₁ l₂ hseg hnd (fun i hi => (hb i hi).1)
  refine ⟨?_, hchain, hlen, ?_, ?_, ?_, ?_, ?_, hframe, ?_, ?_⟩
  · unfold Match.delete_event
    rw [if_pos hidx]
    simp only [ht, htposs]
  · rw [getD_set_self m.possArena p _ default hp]
    exact relinkPossession_first _ t _ l₁ l₂ hfirst hnext_t' hnt1
  · rw [getD_set_self m.possArena p _ default hp]
    exact relinkPossession_last _ t _ l₁ l₂ hlast hprev_t hnt2
  · rw [getD_set_self m.possArena p _ default hp]
    exact (relinkPossession_frame _ t _).1
  · rw [getD_set_self m.possArena p _ default hp]
    exact (relinkPossession_frame _ t _).2.1
  · intro q hq
    exact getD_set_ne m.possArena p q _ default (fun hh => hq hh.symm)
  · intro i hi
    have himem : i ∈ l₁ ++ t :: l₂ := by
      rcases List.mem_append.mp hi with h | h
      · exact List.mem_append_left _ h
      · exact List.mem_append_right _ (List.mem_cons_of_mem t h)
    refine ⟨by rw [hlen]; exact (hb i himem).1, ?_⟩
    by_cases hip : lastOr l₁ none = some i
    · rw [h4a i hip]
      exact (hb i himem).2
    · by_cases hin : headOr l₂ none = some i
      · rw [h4b i hin]
        exact (hb i himem).2
      · rw [hframe i
          (by rw [hprev_t]; exact fun hh => hip hh.symm)
          (by rw [hnext_t']; exact fun hh => hin hh.symm)]
        exact (hb i himem).2
  · intro a b r₁ r₂ h1 h2
    subst h1
    subst h2
    constructor
    · rw [h4a a (by rw [lastOr_eq_or, List.getLast?_concat]; rfl)]
      rfl
    · rw [h4b b rfl]
      show lastOr (r₁ ++ [a]) none = some a
      rw [lastOr_eq_or, List.getLast?_concat]
      rfl

/-- C6: deleting the event `t` (sitting between `l₁` and `l₂` in its
possession's chain) relinks the possession-local neighbors directly to each
other, updates the possession's first/last references exactly when `t` was
head and/or tail (both becoming empty when `t` was the sole event — the
`l₁ = l₂ = []` case of the head?/getLast? equations), removes `t` from the
match-wide time-ordered sequence, and leaves every other event and every
other possession unchanged. -/
theorem claim_C6 (m : Match) (index : Nat) (p t : Nat) (l₁ l₂ : List Nat)
    (hidx : index < m.events.length)
    (ht : m.events.getD index 0 = t)
    (hp : p < m.possArena.length)
    (hseg : chainSeg m.evArena none none (l₁ ++ t :: l₂))
    (hfirst : (m.possArena.getD p default).first_event
      = (l₁ ++ t :: l₂).head?)
    (hlast : (m.possArena.getD p default).last_event
      = (l₁ ++ t :: l₂).getLast?)
    (hnd : (l₁ ++ t :: l₂).Nodup)
    (hb : ∀ i ∈ l₁ ++ t :: l₂, i < m.evArena.length ∧
      (m.evArena.getD i default).possession = some p) :
    ∃ m', m.delete_event index = some m' ∧
      m'.events = m.events.erase t ∧
      chainSeg m'.evArena none none (l₁ ++ l₂) ∧
      (m'.possArena.getD p default).first_event = (l₁ ++ l₂).head? ∧
      (m'.possArena.getD p default).last_event = (l₁ ++ l₂).getLast? ∧
      (l₁ = [] → l₂ = [] →
        (m'.possArena.getD p default).first_event = none ∧
        (m'.possArena.getD p default).last_event = none) ∧
      (m'.possArena.getD p default).id = (m.possArena.getD p default).id ∧
      (m'.possArena.getD p default).team_in_possession
        = (m.possArena.getD p default).team_in_possession ∧
      (∀ q, q ≠ p →
        m'.possArena.getD q default = m.possArena.getD q default) ∧
      (∀ j, some j ≠ (m.evArena.getD t default).prev_in_possession →
        some j ≠ (m.evArena.getD t default).next_in_possession →
        m'.evArena.getD j default = m.evArena.getD j default) ∧
      m'.evArena.length = m.evArena.length ∧
      (∀ a b r₁ r₂, l₁ = r₁ ++ [a] → l₂ = b :: r₂ →
        (m'.evArena.getD a default).next_in_possession = some b ∧
        (m'.evArena.getD b default).prev_in_possession = some a) := by
  obtain ⟨hdel, hchain, hlen, hfirst', hlast', hid, hteam, hothers,
    hframe, hmem, hnbr⟩ :=
    delete_event_spec m index p t l₁ l₂ hidx ht hp hseg hfirst hlast hnd hb
  refine ⟨_, hdel, rfl, hchain, hfirst', hlast', ?_, hid, hteam, hothers,
    hframe, hlen, hnbr⟩
  intro h1 h2
  subst h1
  subst h2
  exact ⟨hfirst', hlast'⟩

/-- Witness for C6: delete the middle of the three demo events. -/
theorem claim_C6_witness :
    ((demoMatch.delete_event 1).map (fun m' => m'.events))
      = some (demoMatch.events.erase 1) ∧
    ((demoMatch.delete_event 1).map
      (fun m' => (m'.possArena.getD 0 default).first_event))
      = some (([0, 2] : List Nat).head?) ∧
    ((demoMatch.delete_event 1).map
      (fun m' => (m'.evArena.getD 0 default).next_in_possession))
      = some (some 2) ∧
    ((demoMatch.delete_event 1).map
      (fun m' => (m'.evArena.getD 2 default).prev_in_possession))
      = some (some 0) := by
  obtain ⟨m', hdel, hev, hchain, hfirst, hlast, hsole, hid, hteam,
    hothers, hframe, hlen, hnbr⟩ :=
    claim_C6 demoMatch 1 0 1 [0] [2] (by decide) (by decide) (by decide)
      (by decide) (by decide) (by decide) (by decide) (by decide)
  obtain ⟨hnext, hprev⟩ := hnbr 0 2 [] [] rfl rfl
  rw [hdel]
  simp only [Option.map_some']
  exact ⟨by rw [hev], by rw [hfirst]; rfl, by rw [hnext], by rw [hprev]⟩

/-! ## Preservation of the structural invariant by the public operations -/

theorem insertByTime_perm (arena : List Event) (t : ℚ) (evIdx : Nat)
    (events : List Nat) :
    (insertByTime arena t evIdx events).Perm (evIdx :: events) := by
  unfold insertByTime
  rw [List.append_assoc, List.singleton_append]
  refine List.Perm.trans List.perm_middle ?_
  rw [List.take_append_drop]

theorem matchInv_init (home away : String) :
    MatchInv (Match.init home away) := by
  refine ⟨fun _ => [], ?_, ?_, List.nodup_nil⟩
  · intro p hp
    simp [Match.init] at hp
  · intro i
    simp [Match.init]

theorem new_possession_idx (m : Match) (team : String) :
    (m.new_possession team).2 = m.possArena.length := by
  unfold Match.new_possession
  cases m.last_possession <;> rfl

theorem new_possession_possLength (m : Match) (team : String) :
    (m.new_possession team).1.possArena.length = m.possArena.length + 1 := by
  unfold Match.new_possession
  cases m.last_possession <;> simp

theorem new_possession_getD_lt (m : Match) (team : String) (p : Nat)
    (hp : p < m.possArena.length) :
    ((m.new_possession team).1.possArena.getD p default).first_event
      = (m.possArena.getD p default).first_event ∧
    ((m.new_possession team).1.possArena.getD p default).last_event
      = (m.possArena.getD p default).last_event := by
  unfold Match.new_possession
  cases hl : m.last_possession with
  | none =>
      rw [show ((m.possArena ++
        [({ id := m.next_possession_id, team_in_possession := team,
            prev_possession := none } : PossessionNode)]).getD p default)
        = m.possArena.getD p default from
        getD_append_left m.possArena _ p default hp]
      exact ⟨rfl, rfl⟩
  | some lastIdx =>
      simp only
      rw [getD_append_left _ _ p default (by simpa using hp)]
      by_cases hpl : lastIdx = p
      · subst hpl
        rw [getD_set_self m.possArena lastIdx _ default (by omega)]
        exact ⟨rfl, rfl⟩
      · rw [getD_set_ne m.possArena lastIdx p _ default hpl]
        exact ⟨rfl, rfl⟩

theorem new_possession_getD_new (m : Match) (team : String) :
    ((m.new_possession team).1.possArena.getD m.possArena.length
      default).first_event = none ∧
    ((m.new_possession team).1.possArena.getD m.possArena.length
      default).last_event = none := by
  unfold Match.new_possession
  cases hl : m.last_possession with
  | none =>
      rw [getD_append_self]
      exact ⟨rfl, rfl⟩
  | some lastIdx =>
      simp only
      constructor <;>
        simp [List.getD_eq_getElem?_getD, List.getElem?_append_right]

theorem matchInv_new_possession (m : Match) (team : String)
    (h : MatchInv m) : MatchInv (m.new_possession team).1 := by
  obtain ⟨chains, hch, hev, hnd⟩ := h
  obtain ⟨hA, hE⟩ := new_possession_evArena m team
  refine ⟨Function.update chains m.possArena.length [],
    ?_, ?_, by rw [hE]; exact hnd⟩
  · intro p hp
    rw [new_possession_possLength] at hp
    by_cases hq : p = m.possArena.length
    · subst hq
      rw [Function.update_same]
      obtain ⟨hf, hl⟩ := new_possession_getD_new m team
      exact ⟨trivial, by rw [hf]; rfl, by rw [hl]; rfl, List.nodup_nil,
        by intro i hi; simp at hi⟩
    · rw [Function.update_noteq hq]
      have hp' : p < m.possArena.length := by omega
      obtain ⟨hseg, hf, hl, hndp, hmem⟩ := hch p hp'
      obtain ⟨hf', hl'⟩ := new_possession_getD_lt m team p hp'
      refine ⟨by rw [hA]; exact hseg, by rw [hf']; exact hf,
        by rw [hl']; exact hl, hndp, ?_⟩
      intro i hi
      rw [hA]
      exact hmem i hi
  · intro i
    rw [hE, hev]
    constructor
    · rintro ⟨q, hq, hiq⟩
      refine ⟨q, by rw [new_possession_possLength]; omega, ?_⟩
      rw [Function.update_noteq (by omega)]
      exact hiq
    · rintro ⟨q, hq, hiq⟩
      by_cases hqn : q = m.possArena.length
      · subst hqn
        rw [Function.update_same] at hiq
        simp at hiq
      · rw [Function.update_noteq hqn] at hiq
        rw [new_possession_possLength] at hq
        exact ⟨q, by omega, hiq⟩

theorem matchInv_update_event (m m' : Match) (index : Nat)
    (u : UpdateFields) (hup : m.update_event index u = some m')
    (h : MatchInv m) : MatchInv m' := by
  unfold Match.update_event at hup
  by_cases hidx : index < m.events.length
  · rw [if_pos hidx] at hup
    have hm' : m' = { m with evArena := (m.evArena.set
        (m.events.getD index 0)
        (applyUpdate (m.evArena.getD (m.events.getD index 0) default) u)) } := by
      injection hup with hh
      exact hh.symm
    subst hm'
    obtain ⟨chains, hch, hev, hnd⟩ := h
    have hptr : ∀ j,
        ((m.evArena.set (m.events.getD index 0)
          (applyUpdate (m.evArena.getD (m.events.getD index 0) default) u)
          ).getD j default).prev_in_possession
          = (m.evArena.getD j default).prev_in_possession ∧
        ((m.evArena.set (m.events.getD index 0)
          (applyUpdate (m.evArena.getD (m.events.getD index 0) default) u)
          ).getD j default).next_in_possession
          = (m.evArena.getD j default).next_in_possession ∧
        ((m.evArena.set (m.events.getD index 0)
          (applyUpdate (m.evArena.getD (m.events.getD index 0) default) u)
          ).getD j default).possession
          = (m.evArena.getD j default).possession := by
      intro j
      by_cases hj : m.events.getD index 0 = j
      · subst hj
        by_cases hlt : m.events.getD index 0 < m.evArena.length
        · rw [getD_set_self m.evArena _ _ default hlt, applyUpdate_eq]
          exact ⟨rfl, rfl, rfl⟩
        · rw [List.set_eq_of_length_le (by omega)]
          exact ⟨rfl, rfl, rfl⟩
      · rw [getD_set_ne m.evArena _ j _ default hj]
        exact ⟨rfl, rfl, rfl⟩
    refine ⟨chains, ?_, hev, hnd⟩
    intro p hp
    obtain ⟨hseg, hf, hl, hndp, hmem⟩ := hch p hp
    refine ⟨chainSeg_congr m.evArena _ (chains p) none none
      (fun i _ => ⟨(hptr i).1, (hptr i).2.1⟩) hseg, hf, hl, hndp, ?_⟩
    intro i hi
    refine ⟨by simpa using (hmem i hi).1, ?_⟩
    rw [(hptr i).2.2]
    exact (hmem i hi).2
  · rw [if_neg hidx] at hup
    exact absurd hup (by simp)

theorem matchInv_add_event_some (m : Match) (mt : ℚ) (et : EventType)
    (team : String) (p : Nat) (pl desc : Option String) (x y : Option ℚ)
    (tags : List (String × Bool)) (hp : p < m.possArena.length)
    (h : MatchInv m) :
    MatchInv (m.add_event mt et team (some p) pl desc x y tags).1 := by
  obtain ⟨chains, hch, hev, hnd⟩ := h
  obtain ⟨hsegp, hfp, hlp, hndp, hmemp⟩ := hch p hp
  have hevm : ∀ i ∈ m.events, i < m.evArena.length := by
    intro i hi
    obtain ⟨q, hq, hiq⟩ := (hev i).mp hi
    exact ((hch q hq).2.2.2.2 i hiq).1
  unfold Match.add_event
  simp only
  cases hle : (m.possArena.getD p default).last_event with
  | none =>
      have hc : chains p = [] := by
        rw [← List.getLast?_eq_none_iff, ← hlp]
        exact hle
      refine ⟨Function.update chains p [m.evArena.length], ?_, ?_, ?_⟩
      · intro q hq
        simp only [List.length_set] at hq
        by_cases hqp : q = p
        · subst hqp
          rw [Function.update_same]
          refine ⟨⟨?_, ?_, trivial⟩, ?_, ?_, by simp, ?_⟩
          · show ((m.evArena ++ [_]).getD m.evArena.length
              default).prev_in_possession = none
            rw [getD_append_self]
          · show ((m.evArena ++ [_]).getD m.evArena.length
              default).next_in_possession = headOr [] none
            rw [getD_append_self]
            rfl
          · rw [getD_set_self m.possArena q _ default hq]
            rfl
          · rw [getD_set_self m.possArena q _ default hq]
            rfl
          · intro i hi
            rw [List.mem_singleton] at hi
            subst hi
            refine ⟨by simp, ?_⟩
            rw [getD_append_self]
        · rw [Function.update_noteq hqp]
          obtain ⟨hseg, hf, hl, hndq, hmem⟩ := hch q hq
          refine ⟨?_, ?_, ?_, hndq, ?_⟩
          · refine chainSeg_congr m.evArena _ (chains q) none none
              (fun i hi => ?_) hseg
            rw [getD_append_left _ _ i default (hmem i hi).1]
            exact ⟨rfl, rfl⟩
          · rw [getD_set_ne m.possArena p q _ default
              (fun hh => hqp hh.symm)]
            exact hf
          · rw [getD_set_ne m.possArena p q _ default
              (fun hh => hqp hh.symm)]
            exact hl
          · intro i hi
            have hb1 := (hmem i hi).1
            refine ⟨by simp; omega, ?_⟩
            rw [getD_append_left _ _ i default hb1]
            exact (hmem i hi).2
      · intro i
        rw [List.Perm.mem_iff (insertByTime_perm _ _ _ _), List.mem_cons]
        constructor
        · rintro (he | hm2)
          · subst he
            refine ⟨p, by simpa using hp, ?_⟩
            rw [Function.update_same]
            simp
          · obtain ⟨q, hq, hiq⟩ := (hev i).mp hm2
            have hqp : q ≠ p := by
              intro hh
              subst hh
              rw [hc] at hiq
              simp at hiq
            exact ⟨q, by simpa using hq,
              by rw [Function.update_noteq hqp]; exact hiq⟩
        · rintro ⟨q, hq, hiq⟩
          by_cases hqp : q = p
          · subst hqp
            rw [Function.update_same] at hiq
            rw [List.mem_singleton] at hiq
            exact Or.inl hiq
          · rw [Function.update_noteq hqp] at hiq
            exact Or.inr ((hev i).mpr ⟨q, by simpa using hq, hiq⟩)
      · rw [List.Perm.nodup_iff (insertByTime_perm _ _ _ _),
          List.nodup_cons]
        exact ⟨fun hmm => by have := hevm _ hmm; omega, hnd⟩
  | some le =>
      have hcne : chains p ≠ [] := by
        intro hh
        rw [hh] at hlp
        rw [hle] at hlp
        simp at hlp
      obtain ⟨init, lastE, hc⟩ := (chains p).eq_nil_or_concat'.resolve_left
        hcne
      have hlastE : lastE = le := by
        have h2 := hlp
        rw [hc, List.getLast?_concat] at h2
        rw [h2] at hle
        injection hle
      subst hlastE
      rw [hc] at hsegp hfp hlp hndp hmemp
      rw [chainSeg_append m.evArena none [lastE] init none] at hsegp
      simp only [headOr] at hsegp
      obtain ⟨hseginit, hleprev, hlenext, -⟩ := hsegp
      have hle_lt : lastE < m.evArena.length := (hmemp lastE (by simp)).1
      have hle_poss := (hmemp lastE (by simp)).2
      have hlenotinit : lastE ∉ init := by
        have hx := List.nodup_append.mp hndp
        exact fun hh => hx.2.2 hh (by simp)
      have hSlen : (m.evArena.set lastE
          { m.evArena.getD lastE default with
            next_in_possession := some m.evArena.length }).length
          = m.evArena.length := by simp
      have e_new : ((m.evArena.set lastE
          { m.evArena.getD lastE default with
            next_in_possession := some m.evArena.length }) ++
          [({ match_time := mt, event_type := et, team := team,
              player := pl, description := desc, x := x, y := y,
              tags := tags, prev_in_possession := some lastE,
              possession := some p } : Event)]).getD m.evArena.length
          default
          = ({ match_time := mt, event_type := et, team := team,
               player := pl, description := desc, x := x, y := y,
               tags := tags, prev_in_possession := some lastE,
               possession := some p } : Event) := by
        have h1 := getD_append_self (m.evArena.set lastE
          { m.evArena.getD lastE default with
            next_in_possession := some m.evArena.length })
          ({ match_time := mt, event_type := et, team := team,
              player := pl, description := desc, x := x, y := y,
              tags := tags, prev_in_possession := some lastE,
              possession := some p } : Event) default
        rw [hSlen] at h1
        exact h1
      have e_le : ∀ ev : Event, ((m.evArena.set lastE
          { m.evArena.getD lastE default with
            next_in_possession := some m.evArena.length }) ++
          [ev]).getD lastE default
          = { m.evArena.getD lastE default with
              next_in_possession := some m.evArena.length } := by
        intro ev
        rw [getD_append_left _ _ lastE default
          (by rw [hSlen]; exact hle_lt)]
        exact getD_set_self m.evArena lastE _ default hle_lt
      have e_old : ∀ (ev : Event) (i : Nat), i ≠ lastE →
          i < m.evArena.length →
          ((m.evArena.set lastE
            { m.evArena.getD lastE default with
              next_in_possession := some m.evArena.length }) ++
            [ev]).getD i default = m.evArena.getD i default := by
        intro ev i hne hlt
        rw [getD_append_left _ _ i default (by rw [hSlen]; exact hlt)]
        exact getD_set_ne m.evArena lastE i _ default
          (fun hh => hne hh.symm)
      refine ⟨Function.update chains p
        ((init ++ [lastE]) ++ [m.evArena.length]), ?_, ?_, ?_⟩
      · intro q hq
        simp only [List.length_set] at hq
        by_cases hqp : q = p
        · subst hqp
          rw [Function.update_same]
          refine ⟨?_, ?_, ?_, ?_, ?_⟩
          · rw [chainSeg_append _ none [m.evArena.length]
              (init ++ [lastE]) none]
            simp only [headOr]
            constructor
            · rw [chainSeg_append _ (some m.evArena.length) [lastE]
                init none]
              simp only [headOr]
              refine ⟨?_, by rw [e_le]; exact hleprev,
                by rw [e_le]; rfl, trivial⟩
              refine chainSeg_congr m.evArena _ init none (some lastE)
                (fun j hj => ?_) hseginit
              have hjle : j ≠ lastE := fun hh =>
                hlenotinit (by rw [← hh]; exact hj)
              have hjlt : j < m.evArena.length :=
                (hmemp j (List.mem_append_left _ hj)).1
              rw [e_old _ j hjle hjlt]
              exact ⟨rfl, rfl⟩
            · rw [show lastOr (init ++ [lastE]) none = some lastE from by
                rw [lastOr_eq_or, List.getLast?_concat]; rfl]
              exact ⟨by rw [e_new], by rw [e_new]; rfl, trivial⟩
          · rw [getD_set_self m.possArena q _ default hq]
            show (m.possArena.getD q default).first_event = _
            rw [hfp]
            exact (List.head?_append_of_ne_nil _ (by simp)).symm
          · rw [getD_set_self m.possArena q _ default hq]
            show some m.evArena.length = _
            rw [List.getLast?_concat]
          · rw [List.nodup_append]
            refine ⟨hndp, by simp, ?_⟩
            intro a ha hb2
            rw [List.mem_singleton] at hb2
            have := (hmemp a ha).1
            omega
          · intro i hi
            rcases List.mem_append.mp hi with h1 | h1
            · have hb1 := (hmemp i h1).1
              refine ⟨by simp; omega, ?_⟩
              by_cases hile : i = lastE
              · subst hile
                rw [e_le]
                exact hle_poss
              · rw [e_old _ i hile hb1]
                exact (hmemp i h1).2
            · rw [List.mem_singleton] at h1
              subst h1
              refine ⟨by simp, by rw [e_new]⟩
        · rw [Function.update_noteq hqp]
          obtain ⟨hseg, hf, hl, hndq, hmem⟩ := hch q hq
          have hqposs : ∀ i ∈ chains q, i ≠ lastE := by
            intro i hi hh
            have h1 := (hmem i hi).2
            rw [hh, hle_poss] at h1
            injection h1 with h2
            exact hqp h2.symm
          refine ⟨?_, ?_, ?_, hndq, ?_⟩
          · refine chainSeg_congr m.evArena _ (chains q) none none
              (fun i hi => ?_) hseg
            rw [e_old _ i (hqposs i hi) (hmem i hi).1]
            exact ⟨rfl, rfl⟩
          · rw [getD_set_ne m.possArena p q _ default
              (fun hh => hqp hh.symm)]
            exact hf
          · rw [getD_set_ne m.possArena p q _ default
              (fun hh => hqp hh.symm)]
            exact hl
          · intro i hi
            have hb1 := (hmem i hi).1
            refine ⟨by simp; omega, ?_⟩
            rw [e_old _ i (hqposs i hi) hb1]
            exact (hmem i hi).2
      · intro i
        rw [List.Perm.mem_iff (insertByTime_perm _ _ _ _), List.mem_cons]
        constructor
        · rintro (he | hm2)
          · subst he
            refine ⟨p, by simpa using hp, ?_⟩
            rw [Function.update_same]
            exact List.mem_append_right _ (by simp)
          · obtain ⟨q, hq, hiq⟩ := (hev i).mp hm2
            by_cases hqp : q = p
            · subst hqp
              refine ⟨q, by simpa using hq, ?_⟩
              rw [Function.update_same]
              rw [hc] at hiq
              exact List.mem_append_left _ hiq
            · exact ⟨q, by simpa using hq,
                by rw [Function.update_noteq hqp]; exact hiq⟩
        · rintro ⟨q, hq, hiq⟩
          by_cases hqp : q = p
          · subst hqp
            rw [Function.update_same] at hiq
            rcases List.mem_append.mp hiq with h1 | h1
            · refine Or.inr ((hev i).mpr ⟨q, by simpa using hq, ?_⟩)
              rw [hc]
              exact h1
            · rw [List.mem_singleton] at h1
              exact Or.inl h1
          · rw [Function.update_noteq hqp] at hiq
            exact Or.inr ((hev i).mpr ⟨q, by simpa using hq, hiq⟩)
      · rw [List.Perm.nodup_iff (insertByTime_perm _ _ _ _),
          List.nodup_cons]
        exact ⟨fun hmm => by have := hevm _ hmm; omega, hnd⟩

theorem add_event_none_eq (m : Match) (mt : ℚ) (et : EventType)
    (team : String) (pl desc : Option String) (x y : Option ℚ)
    (tags : List (String × Bool)) :
    m.add_event mt et team none pl desc x y tags
      = (m.new_possession team).1.add_event mt et team
          (some (m.new_possession team).2) pl desc x y tags := rfl

theorem matchInv_add_event (m : Match) (mt : ℚ) (et : EventType)
    (team : String) (poss : Option Nat) (pl desc : Option String)
    (x y : Option ℚ) (tags : List (String × Bool))
    (hvalid : ∀ q, poss = some q → q < m.possArena.length)
    (h : MatchInv m) :
    MatchInv (m.add_event mt et team poss pl desc x y tags).1 := by
  cases poss with
  | some p =>
      exact matchInv_add_event_some m mt et team p pl desc x y tags
        (hvalid p rfl) h
  | none =>
      rw [add_event_none_eq]
      refine matchInv_add_event_some _ mt et team _ pl desc x y tags ?_
        (matchInv_new_possession m team h)
      rw [new_possession_idx, new_possession_possLength]
      omega

theorem matchInv_delete_event (m m' : Match) (index : Nat)
    (hdel : m.delete_event index = some m') (h : MatchInv m) :
    MatchInv m' := by
  obtain ⟨chains, hch, hev, hnd⟩ := h
  have hidx : index < m.events.length := by
    by_contra hidx
    unfold Match.delete_event at hdel
    rw [if_neg hidx] at hdel
    cases hdel
  have htmem : m.events.getD index 0 ∈ m.events := by
    rw [List.getD_eq_getElem?_getD, List.getElem?_eq_getElem hidx]
    simp only [Option.getD_some]
    exact List.getElem_mem hidx
  obtain ⟨p, hp, htp⟩ := (hev _).mp htmem
  obtain ⟨l₁, l₂, hc⟩ := List.append_of_mem htp
  obtain ⟨hsegp, hfp, hlp, hndp, hmemp⟩ := hch p hp
  rw [hc] at hsegp hfp hlp hndp hmemp
  have hsegA := hsegp
  rw [chainSeg_append m.evArena none (m.events.getD index 0 :: l₂) l₁
    none] at hsegA
  obtain ⟨-, hprev_t, hnext_t, -⟩ := hsegA
  obtain ⟨hEq, hseg', hlen', hfirst', hlast', -, -, hframeP, hframeA,
    hmem', -⟩ :=
    delete_event_spec m index p (m.events.getD index 0) l₁ l₂ hidx rfl hp
      hsegp hfp hlp hndp hmemp
  rw [hdel] at hEq
  injection hEq with hm'
  have hEvA : m'.evArena
      = relinkArena m.evArena (m.events.getD index 0) := by rw [hm']
  have hPoA : m'.possArena
      = m.possArena.set p
          (relinkPossession (m.possArena.getD p default)
            (m.events.getD index 0)
            (m.evArena.getD (m.events.getD index 0) default)) := by
    rw [hm']
  have hEvs : m'.events = m.events.erase (m.events.getD index 0) := by
    rw [hm']
  have hTnotl₁ : m.events.getD index 0 ∉ l₁ := by
    have hx := List.nodup_append.mp hndp
    exact fun hh => hx.2.2 hh (List.mem_cons_self _ _)
  have hTnotl₂ : m.events.getD index 0 ∉ l₂ :=
    (List.nodup_cons.mp (List.nodup_append.mp hndp).2.1).1
  have hother : ∀ q, q < m.possArena.length → q ≠ p → ∀ i ∈ chains q,
      (relinkArena m.evArena (m.events.getD index 0)).getD i default
        = m.evArena.getD i default := by
    intro q hq hqp i hi
    have hiposs := ((hch q hq).2.2.2.2 i hi).2
    refine hframeA i (fun hh => ?_) (fun hh => ?_)
    · rw [hprev_t, lastOr_eq_or, Option.or_none] at hh
      have hm1 : i ∈ l₁ := List.mem_of_getLast?_eq_some hh.symm
      have h2 := (hmemp i (List.mem_append_left _ hm1)).2
      rw [hiposs] at h2
      injection h2 with h3
      exact hqp h3
    · rw [hnext_t] at hh
      have hm2 : i ∈ l₂ := by
        cases l₂ with
        | nil => exact absurd hh (by simp [headOr])
        | cons b r =>
            simp only [headOr] at hh
            injection hh with h3
            rw [h3]
            exact List.mem_cons_self b r
      have h2 := (hmemp i (List.mem_append_right _
        (List.mem_cons_of_mem _ hm2))).2
      rw [hiposs] at h2
      injection h2 with h3
      exact hqp h3
  refine ⟨Function.update chains p (l₁ ++ l₂), ?_, ?_, ?_⟩
  · intro q hq
    rw [hPoA] at hq
    simp only [List.length_set] at hq
    by_cases hqp : q = p
    · subst hqp
      rw [Function.update_same]
      refine ⟨?_, ?_, ?_, ?_, ?_⟩
      · rw [hEvA]
        exact hseg'
      · rw [hPoA]
        exact hfirst'
      · rw [hPoA]
        exact hlast'
      · exact List.Nodup.sublist
          ((List.sublist_cons_self _ _).append_left l₁) hndp
      · intro i hi
        rw [hEvA]
        exact hmem' i hi
    · rw [Function.update_noteq hqp]
      obtain ⟨hsegq, hfq, hlq, hndq, hmemq⟩ := hch q hq
      refine ⟨?_, ?_, ?_, hndq, ?_⟩
      · rw [hEvA]
        refine chainSeg_congr m.evArena _ (chains q) none none
          (fun i hi => ?_) hsegq
        rw [hother q hq hqp i hi]
        exact ⟨rfl, rfl⟩
      · rw [hPoA, hframeP q hqp]
        exact hfq
      · rw [hPoA, hframeP q hqp]
        exact hlq
      · intro i hi
        rw [hEvA, hlen', hother q hq hqp i hi]
        exact hmemq i hi
  · intro i
    rw [hEvs, List.Nodup.mem_erase_iff hnd]
    constructor
    · rintro ⟨hne, hmm⟩
      obtain ⟨q, hq, hiq⟩ := (hev i).mp hmm
      by_cases hqp : q = p
      · subst hqp
        refine ⟨q, by rw [hPoA]; simpa using hq, ?_⟩
        rw [Function.update_same]
        rw [hc] at hiq
        rcases List.mem_append.mp hiq with h1 | h1
        · exact List.mem_append_left _ h1
        · rcases List.mem_cons.mp h1 with h2 | h2
          · exact absurd h2 hne
          · exact List.mem_append_right _ h2
      · exact ⟨q, by rw [hPoA]; simpa using hq,
          by rw [Function.update_noteq hqp]; exact hiq⟩
    · rintro ⟨q, hq, hiq⟩
      rw [hPoA] at hq
      simp only [List.length_set] at hq
      by_cases hqp : q = p
      · subst hqp
        rw [Function.update_same] at hiq
        rcases List.mem_append.mp hiq with h1 | h1
        · refine ⟨fun hh => hTnotl₁ (hh ▸ h1), ?_⟩
          refine (hev i).mpr ⟨q, hq, ?_⟩
          rw [hc]
          exact List.mem_append_left _ h1
        · refine ⟨fun hh => hTnotl₂ (hh ▸ h1), ?_⟩
          refine (hev i).mpr ⟨q, hq, ?_⟩
          rw [hc]
          exact List.mem_append_right _ (List.mem_cons_of_mem _ h1)
      · rw [Function.update_noteq hqp] at hiq
        refine ⟨?_, (hev i).mpr ⟨q, hq, hiq⟩⟩
        intro hh
        have h2 := ((hch q hq).2.2.2.2 i hiq).2
        rw [hh] at h2
        have h3 := (hmemp _ (List.mem_append_right _
          (List.mem_cons_self _ _))).2
        rw [h3] at h2
        injection h2 with h4
        exact hqp h4.symm
  · rw [hEvs]
    exact List.Nodup.erase _ hnd

theorem reachable_matchInv (m : Match) (h : Reachable m) : MatchInv m := by
  induction h with
  | init home away => exact matchInv_init home away
  | new_possession team hr ih => exact matchInv_new_possession _ team ih
  | add_event mt et team poss pl dsc xx yy tg hr hvalid ih =>
      exact matchInv_add_event _ mt et team poss pl dsc xx yy tg hvalid ih
  | update_event index u hr heq ih =>
      exact matchInv_update_event _ _ index u heq ih
  | delete_event index hr heq ih =>
      exact matchInv_delete_event _ _ index heq ih

/-- C9: for every match reachable through the public operations and every
possession of that match, the backward traversal from `last_event`
(`iter_events_reverse`) visits exactly the events of the forward traversal
from `first_event` (`iter_events`), in exactly reversed order. -/
theorem claim_C9 (m : Match) (p : Nat) (hm : Reachable m)
    (hp : p < m.possArena.length) :
    m.possession_iter_events_reverse p
      = (m.possession_iter_events p).reverse := by
  obtain ⟨chains, hch, -, -⟩ := reachable_matchInv m hm
  obtain ⟨hseg, hf, hl, hnd, hmem⟩ := hch p hp
  have hlen : (chains p).length ≤ m.evArena.length :=
    length_le_of_nodup_bound (chains p) m.evArena.length hnd
      (fun i hi => (hmem i hi).1)
  unfold Match.possession_iter_events Match.possession_iter_events_reverse
  rw [hf, hl,
    iterFwd_chain m.evArena (chains p) none m.evArena.length hseg hlen,
    iterBwd_chain m.evArena (chains p) none m.evArena.length hseg hlen]

/-- Witness for C9 at the three-event demo match: its sole possession is
in range, and the reverse traversal is the reverse of the forward one. -/
theorem claim_C9_witness :
    0 < demoMatch.possArena.length ∧
    demoMatch.possession_iter_events_reverse 0
      = (demoMatch.possession_iter_events 0).reverse := by
  have h0 : Reachable (Match.init "Team A" "Team B") :=
    Reachable.init "Team A" "Team B"
  have h1 := Reachable.add_event 1 EventType.PASS "Team A" none none none
    none none [] h0 (fun q hq => by cases hq)
  have h2 := Reachable.add_event 2 EventType.SHOT "Team A" (some 0) none
    none none none [] h1 (fun q hq => by cases hq; decide)
  have h3 := Reachable.add_event 3 EventType.FOUL "Team A" (some 0) none
    none none none [] h2 (fun q hq => by cases hq; decide)
  have hr : Reachable demoMatch := h3
  exact ⟨by decide, claim_C9 demoMatch 0 hr (by decide)⟩

end SoccerEvents
